import Mathlib

/-!
Verification development for the rpoco reflection and traversal library
(src/rpoco/rpoco.hpp).

The library declares, once per record type, an ordered member list (the
RPOCO macro), lazily builds a per-type field table (rpoco::type_info), and
walks values in two directions (consume = deserialization, produce =
serialization) through an abstract rpoco::visitor.

Shallow embedding used here:
  - `Value` is the canonical structured-data tree exchanged with a visitor
    of one format family: a consuming visitor hands the dispatch layer the
    children of a `Value.vobj` or `Value.varr` in source order (exactly the
    visitor contract of rpoco.hpp), and a producing visitor records the
    emitted `produce_start`, leaf visits and `produce_end` as a `Value`.
  - `Shape` is the static type of a reflected field, mirroring the template
    specializations of `rpoco::visit`: int, bool, string leaves, records,
    `std::vector`, string-keyed `std::map`, and the three owning-reference
    specializations (`F*`, `std::shared_ptr`, `std::unique_ptr`) which share
    one textually identical body and are embedded once as `Shape.sPtr`.
  - `RV` is the runtime value of a field.  A record value is the list of its
    member values in declaration order; the ptrdiff offset stored by
    `rpoco::field` is embedded as the member index into that list.
  - A consuming visitor whose next unit does not match the kind a shape
    requests is a structural mismatch; the core leaves its behavior to the
    collaborator (spec section 7), and the canonical visitor embedded here
    reports it as `Option.none`.  Floating point leaves and the fixed char
    buffer leaf are outside the embedded shape universe.
  - The double-checked locking registry initialization is embedded
    separately as an interleaving state machine (`rpoco.dcl` namespace),
    assuming sequentially consistent atomics (the code uses the default
    memory order on `m_is_init`).
-/

namespace rpoco

/-- visit_type of rpoco.hpp: the closed tag set describing the shape of a
data unit. -/
inductive visit_type where
  | vt_none
  | vt_error
  | vt_object
  | vt_array
  | vt_null
  | vt_bool
  | vt_number
  | vt_string
deriving DecidableEq, Repr

/-- Canonical structured value of one format family, exchanged with a
visitor: null, bool, number, string leaves, arrays, and objects whose
children are (name, value) pairs in source order. -/
inductive Value where
  | vnull
  | vbool (b : Bool)
  | vnum (n : Int)
  | vstr (s : String)
  | varr (items : List Value)
  | vobj (children : List (String × Value))

/-- Kind reported by the peek operation of a consuming visitor positioned
at a given value. -/
def kindOf : Value → visit_type
  | .vnull => .vt_null
  | .vbool _ => .vt_bool
  | .vnum _ => .vt_number
  | .vstr _ => .vt_string
  | .varr _ => .vt_array
  | .vobj _ => .vt_object

/-- Static shape of a reflected field, one constructor per template
specialization of rpoco::visit.  `sRec` carries the declared member list
(name and shape, in declaration order); `sPtr` covers the raw pointer,
shared_ptr and unique_ptr specializations, whose bodies are identical. -/
inductive Shape where
  | sInt
  | sBool
  | sStr
  | sRec (decls : List (String × Shape))
  | sVec (e : Shape)
  | sMap (e : Shape)
  | sPtr (e : Shape)

/-- Runtime value of a field.  A record is its member values in declaration
order; a map is its entry list in key order (the std::map representation);
an owning reference is either unset (`rPtrNone`) or holds one instance. -/
inductive RV where
  | rInt (n : Int)
  | rBool (b : Bool)
  | rStr (s : String)
  | rRec (vals : List RV)
  | rVec (xs : List RV)
  | rMap (entries : List (String × RV))
  | rPtrNone
  | rPtrSome (x : RV)

/-- rpoco::member together with the rpoco::field payload: a name, the
member position (embedding the ptrdiff offset), and the static shape of the
member (the template argument F of rpoco::field). -/
structure Mem where
  m_name : String
  m_offset : Nat
  sh : Shape

/-- Insert-or-assign on the association list embedding
std::unordered_map.  Present keys are overwritten in place, absent keys are
appended; only lookup behavior matters, the bucket order of the real hash
map is irrelevant to every claim. -/
def assocSet (k : String) (v : Option Mem) :
    List (String × Option Mem) → List (String × Option Mem)
  | [] => [(k, v)]
  | (k', v') :: t => if k = k' then (k, v) :: t else (k', v') :: assocSet k v t

/-- rpoco::type_info: the ordered field vector plus the name-indexed
unordered_map.  Map values are member pointers, possibly null
(`Option Mem`), since operator[] on a string can insert a null pointer. -/
structure type_info where
  fields : List Mem
  m_named_fields : List (String × Option Mem)

/-- Empty table, the state of the function-local static before init. -/
def type_info.empty : type_info := ⟨[], []⟩

/-- type_info::size. -/
def type_info.size (ti : type_info) : Nat := ti.fields.length

/-- type_info::has: whether the name-indexed map holds an entry for the
given key (find against end; the stored pointer may still be null). -/
def type_info.has (ti : type_info) (id : String) : Bool :=
  (ti.m_named_fields.lookup id).isSome

/-- type_info::operator[](std::string): unordered_map operator[], which
default-inserts a null member pointer when the key is absent.  Returns the
referenced pointer value together with the possibly extended table. -/
def type_info.getStr (ti : type_info) (id : String) :
    Option Mem × type_info :=
  match ti.m_named_fields.lookup id with
  | some v => (v, ti)
  | none => (none, ⟨ti.fields, ti.m_named_fields ++ [(id, none)]⟩)

/-- Pure read of the name-indexed map, flattening a stored null pointer to
none.  The dispatch layer only indexes by name after a positive has check,
where operator[] does not mutate; this is that non-mutating read. -/
def type_info.findNamed (ti : type_info) (id : String) : Option Mem :=
  match ti.m_named_fields.lookup id with
  | some v => v
  | none => none

/-- type_info::add: push the member onto the ordered field vector and
insert-or-assign it into the name-indexed map. -/
def type_info.add (ti : type_info) (fb : Mem) : type_info :=
  ⟨ti.fields ++ [fb], assocSet fb.m_name (some fb) ti.m_named_fields⟩

/-- rpoco_type_info_expand of the RPOCO macro: walk the declared member
list, adding one rpoco::field per member whose offset is its declaration
position. -/
def rpoco_type_info_expand (ti : type_info) (idx : Nat) :
    List (String × Shape) → type_info
  | [] => ti
  | (n, sh) :: rest =>
      rpoco_type_info_expand (ti.add ⟨n, idx, sh⟩) (idx + 1) rest

/-- rpoco_type_info_get for a record with the given declaration list: the
fully built registry (the once-only construction discipline is verified
separately by the dcl state machine). -/
def rpoco_type_info_get (decls : List (String × Shape)) : type_info :=
  rpoco_type_info_expand type_info.empty 0 decls

mutual

/-- Value a field holds before consumption touches it: C++
value-initialization as performed by new F(), emplace_back() and
map operator[] — zero for int, false for bool, empty string, recursively
default record members, empty containers, unset references. -/
def defaultRV : Shape → RV
  | .sInt => .rInt 0
  | .sBool => .rBool false
  | .sStr => .rStr ""
  | .sRec decls => .rRec (defaultFields decls)
  | .sVec _ => .rVec []
  | .sMap _ => .rMap []
  | .sPtr _ => .rPtrNone

/-- Default member values of a record, in declaration order. -/
def defaultFields : List (String × Shape) → List RV
  | [] => []
  | (_, sh) :: rest => defaultRV sh :: defaultFields rest

end

/-- Calls the discard sink makes on the visitor, recorded as a trace:
a peek, a leaf visit (into a throwaway local), the start of a structured
consume, or the callback invocation for one discovered child key. -/
inductive VEvent where
  | peek (vt : visit_type)
  | leafNull
  | leafNumber
  | leafBool
  | leafString
  | consumeStart (vt : visit_type)
  | childKey (s : String)
deriving DecidableEq, Repr

mutual

/-- visit of rpoco::niltarget (the discard sink), embedded as the trace of
visitor calls it performs when the consuming visitor is positioned at the
given value: peek the kind; scalar kinds perform one leaf visit into a
throwaway local; array and object kinds start a structured consume and
recurse the sink once per discovered child.  The sink touches no state
other than its throwaway locals, so the trace is its entire behavior. -/
def nilVisit : Value → List VEvent
  | .vnull => [.peek .vt_null, .leafNull]
  | .vnum _ => [.peek .vt_number, .leafNumber]
  | .vbool _ => [.peek .vt_bool, .leafBool]
  | .vstr _ => [.peek .vt_string, .leafString]
  | .varr items => .peek .vt_array :: .consumeStart .vt_array :: nilVisitArr items
  | .vobj children =>
      .peek .vt_object :: .consumeStart .vt_object :: nilVisitObj children

/-- Per-item sink recursion driven by the consuming visitor over an array:
one callback (with an empty property name) per item. -/
def nilVisitArr : List Value → List VEvent
  | [] => []
  | it :: rest => .childKey "" :: nilVisit it ++ nilVisitArr rest

/-- Per-child sink recursion driven by the consuming visitor over an
object: one callback with the discovered property name per child. -/
def nilVisitObj : List (String × Value) → List VEvent
  | [] => []
  | (n, cv) :: rest => .childKey n :: nilVisit cv ++ nilVisitObj rest

end

mutual

/-- Production direction of the shape-specialized rpoco::visit family: the
visitor answered false to consume, so dispatch drives the producing visitor
itself.  The value emitted between produce_start and produce_end is
returned as a tree.  A value whose constructor does not match the static
shape is unreachable for well-typed C++ records and maps to null here. -/
def produce (sh : Shape) (rv : RV) : Value :=
  match sh, rv with
  | .sInt, .rInt n => .vnum n
  | .sBool, .rBool b => .vbool b
  | .sStr, .rStr s => .vstr s
  | .sRec decls, .rRec vals =>
      .vobj (produceMembers (rpoco_type_info_get decls).fields vals)
  | .sVec e, .rVec xs => .varr (produceItems e xs)
  | .sMap e, .rMap entries => .vobj (produceEntries e entries)
  | .sPtr _, .rPtrNone => .vnull
  | .sPtr e, .rPtrSome x => produce e x
  | _, _ => .vnull
termination_by (sizeOf rv, 0)
decreasing_by all_goals
  first
    | exact Prod.Lex.left _ _ (List.sizeOf_lt_of_mem (List.getElem?_mem h))
    | (apply Prod.Lex.left ; simp_arith ; done)
    | (apply Prod.Lex.right ; simp_arith ; done)

/-- Produce branch of the generic record visit: for each registered member
in field-vector order, emit its name and then visit the member at its
offset.  Reading past the member list (a corrupt offset, impossible for
registries built by the macro) emits null. -/
def produceMembers (ms : List Mem) (vals : List RV) : List (String × Value) :=
  match ms with
  | [] => []
  | m :: rest =>
      (m.m_name,
        match h : vals[m.m_offset]? with
        | some x => produce m.sh x
        | none => .vnull) :: produceMembers rest vals
termination_by (sizeOf vals, ms.length + 1)
decreasing_by all_goals
  first
    | exact Prod.Lex.left _ _ (List.sizeOf_lt_of_mem (List.getElem?_mem h))
    | (apply Prod.Lex.left ; simp_arith ; done)
    | (apply Prod.Lex.right ; simp_arith ; done)

/-- Produce branch of the vector visit: visit the elements in container
order. -/
def produceItems (e : Shape) (xs : List RV) : List Value :=
  match xs with
  | [] => []
  | x :: rest => produce e x :: produceItems e rest
termination_by (sizeOf xs, 0)
decreasing_by all_goals
  first
    | exact Prod.Lex.left _ _ (List.sizeOf_lt_of_mem (List.getElem?_mem h))
    | (apply Prod.Lex.left ; simp_arith ; done)
    | (apply Prod.Lex.right ; simp_arith ; done)

/-- Produce branch of the map visit: visit each entry as its key string
followed by its value, in container (key) order. -/
def produceEntries (e : Shape) (es : List (String × RV)) :
    List (String × Value) :=
  match es with
  | [] => []
  | (k, x) :: rest => (k, produce e x) :: produceEntries e rest
termination_by (sizeOf es, 0)
decreasing_by all_goals
  first
    | exact Prod.Lex.left _ _ (List.sizeOf_lt_of_mem (List.getElem?_mem h))
    | (apply Prod.Lex.left ; simp_arith ; done)
    | (apply Prod.Lex.right ; simp_arith ; done)

end

/-- std::map operator[] on the ordered entry list: overwrite the matching
key or insert at the ordered position (std::map keeps keys sorted by the
less-than comparison). -/
def mapAssign (k : String) (nv : RV) : List (String × RV) → List (String × RV)
  | [] => [(k, nv)]
  | (k', v') :: t =>
      if k < k' then (k, nv) :: (k', v') :: t
      else if k' < k then (k', v') :: mapAssign k nv t
      else (k, nv) :: t

mutual

/-- Consumption direction of the shape-specialized rpoco::visit family:
the consuming visitor is positioned at value v, the target field currently
holds r.  Leaves overwrite the target from the matching unit; records
dispatch each discovered child through the registry or the discard sink;
vectors append one element per item; maps insert or update one entry per
child; references allocate on first non-null input.  A kind mismatch
between the unit and what the shape requests is collaborator territory in
the C++ (spec section 7) and is reported by the canonical visitor embedded
here as none; vt_none never occurs while consuming, so the peek test of the
reference shape reduces to the null check. -/
def consume (sh : Shape) (r : RV) (v : Value) : Option RV :=
  match sh, r, v with
  | .sInt, _, .vnum n => some (.rInt n)
  | .sInt, _, _ => none
  | .sBool, _, .vbool b => some (.rBool b)
  | .sBool, _, _ => none
  | .sStr, _, .vstr s => some (.rStr s)
  | .sStr, _, _ => none
  | .sRec decls, .rRec vals, .vobj children =>
      (consumeMembers (rpoco_type_info_get decls) vals children).map .rRec
  | .sRec _, _, _ => none
  | .sVec e, .rVec xs, .varr items =>
      (consumeItems e items).map (fun ys => .rVec (xs ++ ys))
  | .sVec _, _, _ => none
  | .sMap e, .rMap entries, .vobj children =>
      (consumeEntries e entries children).map .rMap
  | .sMap _, _, _ => none
  | .sPtr e, .rPtrSome x, w => (consume e x w).map .rPtrSome
  | .sPtr e, .rPtrNone, w =>
      if kindOf w ≠ .vt_null then (consume e (defaultRV e) w).map .rPtrSome
      else some .rPtrNone
  | .sPtr _, _, _ => none
termination_by (sizeOf v, sizeOf sh)
decreasing_by all_goals
  first
    | (apply Prod.Lex.left ; simp_arith ; done)
    | (apply Prod.Lex.right ; simp_arith ; done)

/-- Consume callback of the generic record visit, once per discovered
child in source order: a name with no registered member is routed to the
discard sink (running it changes no caller state); a registered name
visits the member at its offset.  A registered name whose stored member
pointer is null (possible only after an out-of-band string index, never
for macro-built registries) dereferences null in the C++ and is embedded
as an error. -/
def consumeMembers (ti : type_info) (vals : List RV) :
    List (String × Value) → Option (List RV)
  | [] => some vals
  | (n, cv) :: rest =>
      if ti.has n then
        match ti.findNamed n with
        | some m =>
            match consume m.sh (vals.getD m.m_offset (.rRec [])) cv with
            | some fv => consumeMembers ti (vals.set m.m_offset fv) rest
            | none => none
        | none => none
      else
        let _sinkTrace := nilVisit cv
        consumeMembers ti vals rest
termination_by children => (sizeOf children, 0)
decreasing_by all_goals
  first
    | (apply Prod.Lex.left ; simp_arith ; done)
    | (apply Prod.Lex.right ; simp_arith ; done)

/-- Consume callback of the vector visit, once per discovered array item:
emplace a value-initialized element at the back and visit it. -/
def consumeItems (e : Shape) : List Value → Option (List RV)
  | [] => some []
  | it :: rest =>
      match consume e (defaultRV e) it with
      | some y => (consumeItems e rest).map (fun ys => y :: ys)
      | none => none
termination_by items => (sizeOf items, 0)
decreasing_by all_goals
  first
    | (apply Prod.Lex.left ; simp_arith ; done)
    | (apply Prod.Lex.right ; simp_arith ; done)

/-- Consume callback of the map visit, once per discovered child: index
the map with the key (value-initializing an absent entry) and visit that
entry. -/
def consumeEntries (e : Shape) (cur : List (String × RV)) :
    List (String × Value) → Option (List (String × RV))
  | [] => some cur
  | (k, cv) :: rest =>
      match consume e (((cur.lookup k).getD (defaultRV e))) cv with
      | some nv => consumeEntries e (mapAssign k nv cur) rest
      | none => none
termination_by children => (sizeOf children, 0)
decreasing_by all_goals
  first
    | (apply Prod.Lex.left ; simp_arith ; done)
    | (apply Prod.Lex.right ; simp_arith ; done)

end

/-- Whether the ordered entry list of a map value is strictly sorted by
key, the representation invariant of std::map. -/
def keysSorted : List (String × RV) → Bool
  | [] => true
  | [_] => true
  | (k1, v1) :: (k2, v2) :: t =>
      decide (k1 < k2) && keysSorted ((k2, v2) :: t)

mutual

/-- Representation well-formedness of a runtime value against its static
shape: the inherent invariants of a live C++ object of the reflected type.
Constructors match the shape, records carry exactly the declared members
(with distinct declared names, the construction-time requirement stated by
the spec), and map entries are strictly key-sorted as std::map keeps
them. -/
def wfB : Shape → RV → Bool
  | .sInt, .rInt _ => true
  | .sBool, .rBool _ => true
  | .sStr, .rStr _ => true
  | .sRec decls, .rRec vals =>
      decide ((decls.map Prod.fst).Nodup) && wfFields decls vals
  | .sVec e, .rVec xs => wfItems e xs
  | .sMap e, .rMap es => keysSorted es && wfEntries e es
  | .sPtr _, .rPtrNone => true
  | .sPtr e, .rPtrSome x => wfB e x
  | _, _ => false

/-- Member values of a record match the declared member shapes
pointwise. -/
def wfFields : List (String × Shape) → List RV → Bool
  | [], [] => true
  | (_, sh) :: ds, x :: xs => wfB sh x && wfFields ds xs
  | _, _ => false

/-- Every element of a vector is well formed at the element shape. -/
def wfItems (e : Shape) : List RV → Bool
  | [] => true
  | x :: xs => wfB e x && wfItems e xs

/-- Every entry value of a map is well formed at the element shape. -/
def wfEntries (e : Shape) : List (String × RV) → Bool
  | [] => true
  | (_, x) :: rest => wfB e x && wfEntries e rest

end

mutual

/-- Canonical-form side condition: no set owning reference directly holds
an unset owning reference.  Such a doubly nested reference serializes to
null and therefore cannot survive a round trip. -/
def canonB : RV → Bool
  | .rInt _ => true
  | .rBool _ => true
  | .rStr _ => true
  | .rRec vals => canonList vals
  | .rVec xs => canonList xs
  | .rMap es => canonEntries es
  | .rPtrNone => true
  | .rPtrSome .rPtrNone => false
  | .rPtrSome x => canonB x

/-- Canonical form for every value of a list. -/
def canonList : List RV → Bool
  | [] => true
  | x :: xs => canonB x && canonList xs

/-- Canonical form for every entry value of a map. -/
def canonEntries : List (String × RV) → Bool
  | [] => true
  | (_, x) :: rest => canonB x && canonEntries rest

end

/-- Members the macro expansion adds for a declaration list starting at a
given position: one member per declaration, offsets increasing from the
starting position in declaration order. -/
def membersFrom (idx : Nat) : List (String × Shape) → List Mem
  | [] => []
  | (n, sh) :: rest => ⟨n, idx, sh⟩ :: membersFrom (idx + 1) rest

/-- Modelled from the spec: the write-direction child sequence the spec
promises for a record — one child per declared member, in declaration
order, each child being the member name followed by the produced member
value.  Used to compare the registry-driven produce path against the
declaration list directly. -/
def prodFields (vals : List RV) : List (String × Shape) → Nat →
    List (String × Value)
  | [], _ => []
  | (n, sh) :: rest, i =>
      (n, (vals[i]?).elim Value.vnull (produce sh)) :: prodFields vals rest (i + 1)

/-- Number of leaf visits (reads into a throwaway local) in a sink
trace. -/
def leafEventCount : List VEvent → Nat
  | [] => 0
  | ev :: rest =>
      (match ev with
        | .leafNull | .leafNumber | .leafBool | .leafString => 1
        | _ => 0) + leafEventCount rest

/-- Number of structured consume starts in a sink trace. -/
def consumeStartCount : List VEvent → Nat
  | [] => 0
  | ev :: rest =>
      (match ev with
        | .consumeStart _ => 1
        | _ => 0) + consumeStartCount rest

mutual

/-- Number of scalar nodes (null, bool, number, string units) in a value,
nested structure included. -/
def scalarNodeCount : Value → Nat
  | .vnull | .vbool _ | .vnum _ | .vstr _ => 1
  | .varr items => scalarNodeCountArr items
  | .vobj children => scalarNodeCountObj children

/-- Scalar nodes of all items of an array. -/
def scalarNodeCountArr : List Value → Nat
  | [] => 0
  | it :: rest => scalarNodeCount it + scalarNodeCountArr rest

/-- Scalar nodes of all children of an object. -/
def scalarNodeCountObj : List (String × Value) → Nat
  | [] => 0
  | (_, cv) :: rest => scalarNodeCount cv + scalarNodeCountObj rest

end

mutual

/-- Number of composite nodes (arrays and objects) in a value, itself
included when composite. -/
def compositeNodeCount : Value → Nat
  | .vnull | .vbool _ | .vnum _ | .vstr _ => 0
  | .varr items => 1 + compositeNodeCountArr items
  | .vobj children => 1 + compositeNodeCountObj children

/-- Composite nodes of all items of an array. -/
def compositeNodeCountArr : List Value → Nat
  | [] => 0
  | it :: rest => compositeNodeCount it + compositeNodeCountArr rest

/-- Composite nodes of all children of an object. -/
def compositeNodeCountObj : List (String × Value) → Nat
  | [] => 0
  | (_, cv) :: rest => compositeNodeCount cv + compositeNodeCountObj rest

end

/-- field visit against a record instance while consuming: visit the value
at the member offset of the instance and store the result back there.  The
second component of the C++ visit switch, split out because the embedding
separates the two traversal directions. -/
def Mem.visit_consume (m : Mem) (vals : List RV) (v : Value) :
    Option (List RV) :=
  (consume m.sh (vals.getD m.m_offset (.rRec [])) v).map
    (fun fv => vals.set m.m_offset fv)

/-- field visit against a record instance while producing: visit the value
at the member offset of the instance read-only. -/
def Mem.visit_produce (m : Mem) (vals : List RV) : Value :=
  (vals[m.m_offset]?).elim Value.vnull (produce m.sh)

namespace dcl

/-- Program counter of one thread running rpoco_type_info_get for a type
with N declared members, under the interleaving semantics of the
double-checked locking init (sequentially consistent atomics, the default
memory order the code uses on m_is_init). -/
inductive PC where
  | start
  | waitLock
  | inLock
  | building (k : Nat)
  | unlocking
  | done
deriving DecidableEq, Repr

/-- Shared state: the atomic is_init flag, the init_mutex, the number of
initfun executions begun, the number of fields added to the shared
type_info so far, and every thread position. -/
structure Sys where
  flag : Bool
  locked : Bool
  builds : Nat
  table : Nat
  threads : List PC
deriving DecidableEq, Repr

/-- All T threads about to enter rpoco_type_info_get for the first time,
the function-local static type_info freshly constructed. -/
def initSys (T : Nat) : Sys :=
  ⟨false, false, 0, 0, List.replicate T .start⟩

/-- Move one thread to a new program position. -/
def Sys.setThread (s : Sys) (i : Nat) (pc : PC) : Sys :=
  { s with threads := s.threads.set i pc }

/-- One interleaved step of some thread, following rpoco_type_info_get and
type_info::init line by line: the unsynchronized is_init fast check, mutex
acquisition, the locked re-check, the member-by-member initfun run, the
is_init store, and the mutex release. -/
inductive Step (N : Nat) : Sys → Sys → Prop where
  | fastSeen (s : Sys) (i : Nat) (h : s.threads[i]? = some .start)
      (hf : s.flag = true) : Step N s (s.setThread i .done)
  | fastMiss (s : Sys) (i : Nat) (h : s.threads[i]? = some .start)
      (hf : s.flag = false) : Step N s (s.setThread i .waitLock)
  | acquire (s : Sys) (i : Nat) (h : s.threads[i]? = some .waitLock)
      (hl : s.locked = false) :
      Step N s { s.setThread i .inLock with locked := true }
  | recheckTrue (s : Sys) (i : Nat) (h : s.threads[i]? = some .inLock)
      (hf : s.flag = true) : Step N s (s.setThread i .unlocking)
  | recheckFalse (s : Sys) (i : Nat) (h : s.threads[i]? = some .inLock)
      (hf : s.flag = false) :
      Step N s { s.setThread i (.building 0) with builds := s.builds + 1 }
  | buildStep (s : Sys) (i k : Nat) (h : s.threads[i]? = some (.building k))
      (hk : k < N) :
      Step N s { s.setThread i (.building (k + 1)) with table := s.table + 1 }
  | buildDone (s : Sys) (i : Nat) (h : s.threads[i]? = some (.building N)) :
      Step N s { s.setThread i .unlocking with flag := true }
  | release (s : Sys) (i : Nat) (h : s.threads[i]? = some .unlocking) :
      Step N s { s.setThread i .done with locked := false }

/-- Reachability from the fresh T-thread start state. -/
def Reach (N T : Nat) (s : Sys) : Prop :=
  Relation.ReflTransGen (Step N) (initSys T) s

/-- A thread inside the mutex-protected section. -/
def inCrit : PC → Prop := fun pc =>
  pc = .inLock ∨ (∃ k, pc = .building k) ∨ pc = .unlocking

/-- Inductive invariant of the double-checked locking init. -/
structure Inv (N : Nat) (s : Sys) : Prop where
  mutex : ∀ (i j : Nat) (pi pj : PC), s.threads[i]? = some pi →
    s.threads[j]? = some pj → inCrit pi → inCrit pj → i = j
  lockIff : s.locked = true ↔
    ∃ (i : Nat) (pc : PC), s.threads[i]? = some pc ∧ inCrit pc
  flagTable : s.flag = true → s.table = N ∧ s.builds = 1
  buildState : ∀ (i k : Nat), s.threads[i]? = some (.building k) →
    s.flag = false ∧ s.table = k ∧ s.builds = 1 ∧ k ≤ N
  idleState : s.flag = false →
    (∀ (i k : Nat), s.threads[i]? ≠ some (.building k)) →
    s.table = 0 ∧ s.builds = 0
  unlockFlag : ∀ (i : Nat), s.threads[i]? = some .unlocking → s.flag = true
  doneFlag : ∀ (i : Nat), s.threads[i]? = some .done → s.flag = true

end dcl

end rpoco

namespace rpoco

theorem produceMembers_nil (vals : List RV) : produceMembers [] vals = [] := by
  simp [produceMembers]

theorem produceMembers_cons (m : Mem) (ms : List Mem) (vals : List RV) :
    produceMembers (m :: ms) vals =
      (m.m_name, (vals[m.m_offset]?).elim Value.vnull (produce m.sh))
        :: produceMembers ms vals := by
  rw [produceMembers]
  split <;> rename_i h <;> simp [h]

theorem assocSet_lookup_self (k : String) (v : Option Mem)
    (l : List (String × Option Mem)) : (assocSet k v l).lookup k = some v := by
  induction l with
  | nil => simp [assocSet]
  | cons p t ih =>
    obtain ⟨k', v'⟩ := p
    by_cases h : k = k'
    · subst h
      simp [assocSet]
    · rw [assocSet]
      simp only [if_neg h]
      rw [List.lookup_cons]
      simp [beq_false_of_ne h, ih]

theorem assocSet_lookup_ne (k k' : String) (v : Option Mem)
    (l : List (String × Option Mem)) (h : k' ≠ k) :
    (assocSet k v l).lookup k' = l.lookup k' := by
  induction l with
  | nil =>
    rw [assocSet]
    rw [List.lookup_cons]
    simp [beq_false_of_ne h]
  | cons p t ih =>
    obtain ⟨k2, v2⟩ := p
    by_cases h2 : k = k2
    · subst h2
      rw [assocSet, if_pos rfl]
      rw [List.lookup_cons, List.lookup_cons]
      simp [beq_false_of_ne h]
    · rw [assocSet]
      simp only [if_neg h2]
      by_cases h3 : k' = k2
      · subst h3
        rw [List.lookup_cons, List.lookup_cons]
        simp
      · rw [List.lookup_cons, List.lookup_cons]
        simp [beq_false_of_ne h3, ih]

/-- Adding a member then looking its name up yields that member. -/
theorem add_findNamed_self (ti : type_info) (fb : Mem) :
    (ti.add fb).findNamed fb.m_name = some fb := by
  simp [type_info.add, type_info.findNamed, assocSet_lookup_self]

/-- Adding a member leaves the lookup of other names unchanged. -/
theorem add_findNamed_ne (ti : type_info) (fb : Mem) (n : String)
    (h : n ≠ fb.m_name) : (ti.add fb).findNamed n = ti.findNamed n := by
  simp [type_info.add, type_info.findNamed, assocSet_lookup_ne _ _ _ _ h]

/-- Adding a member makes has true for its name and preserves has of other
names. -/
theorem add_has (ti : type_info) (fb : Mem) (n : String) :
    (ti.add fb).has n = ((n = fb.m_name : Bool) || ti.has n) := by
  by_cases h : n = fb.m_name
  · subst h
    simp [type_info.add, type_info.has, assocSet_lookup_self]
  · simp [type_info.add, type_info.has, assocSet_lookup_ne _ _ _ _ h, h]

/-- The field vector built by macro expansion: the members already present
followed by one member per declaration with consecutive offsets. -/
theorem expand_fields (decls : List (String × Shape)) :
    ∀ (ti : type_info) (idx : Nat),
    (rpoco_type_info_expand ti idx decls).fields =
      ti.fields ++ membersFrom idx decls := by
  induction decls with
  | nil => intro ti idx; simp [rpoco_type_info_expand, membersFrom]
  | cons p rest ih =>
    intro ti idx
    obtain ⟨n, sh⟩ := p
    rw [rpoco_type_info_expand, membersFrom, ih]
    simp [type_info.add]

/-- has over the built table: a name is present exactly when some
declaration carries it (or it was present before expansion). -/
theorem expand_has (decls : List (String × Shape)) :
    ∀ (ti : type_info) (idx : Nat) (n : String),
    (rpoco_type_info_expand ti idx decls).has n =
      ((decls.map Prod.fst).contains n || ti.has n) := by
  induction decls with
  | nil => intro ti idx n; simp [rpoco_type_info_expand]
  | cons p rest ih =>
    intro ti idx n
    obtain ⟨n', sh⟩ := p
    rw [rpoco_type_info_expand, ih]
    simp [add_has]
    by_cases h : n = n'
    · subst h
      simp
    · simp [beq_false_of_ne h, h]

/-- Expansion does not touch lookups of names absent from the
declarations. -/
theorem expand_findNamed_miss (decls : List (String × Shape)) :
    ∀ (ti : type_info) (idx : Nat) (n : String),
    n ∉ decls.map Prod.fst →
    (rpoco_type_info_expand ti idx decls).findNamed n = ti.findNamed n := by
  induction decls with
  | nil => intro ti idx n _; simp [rpoco_type_info_expand]
  | cons p rest ih =>
    intro ti idx n hn
    obtain ⟨n', sh⟩ := p
    rw [List.map_cons] at hn
    have h1 : n ≠ n' := fun he => hn (by simp [he])
    have h2 : n ∉ rest.map Prod.fst := fun hm => hn (List.mem_cons_of_mem _ hm)
    rw [rpoco_type_info_expand, ih _ _ _ h2]
    exact add_findNamed_ne _ _ _ h1

/-- Looking a declared name up in the built table resolves to the member
of its last declaration with that name. -/
theorem expand_findNamed_hit (decls : List (String × Shape)) :
    ∀ (ti : type_info) (idx : Nat) (i : Nat) (n : String) (sh : Shape),
    decls[i]? = some (n, sh) →
    (∀ j, i < j → ∀ p, decls[j]? = some p → p.1 ≠ n) →
    (rpoco_type_info_expand ti idx decls).findNamed n =
      some ⟨n, idx + i, sh⟩ := by
  induction decls with
  | nil => intro ti idx i n sh h _; simp at h
  | cons p rest ih =>
    intro ti idx i n sh h hlast
    obtain ⟨n0, sh0⟩ := p
    cases i with
    | zero =>
      have h0 : n0 = n ∧ sh0 = sh := by simpa using h
      obtain ⟨rfl, rfl⟩ := h0
      rw [rpoco_type_info_expand]
      have hrest : n0 ∉ rest.map Prod.fst := by
        intro hmem
        obtain ⟨q, hq, hq1⟩ := List.mem_map.mp hmem
        obtain ⟨j, hj⟩ := List.getElem?_of_mem hq
        exact (hlast (j + 1) (by omega) q (by simpa using hj)) hq1
      rw [expand_findNamed_miss rest _ _ _ hrest]
      simpa using add_findNamed_self ti ⟨n0, idx, sh0⟩
    | succ i0 =>
      have h1 : rest[i0]? = some (n, sh) := by simpa using h
      rw [rpoco_type_info_expand]
      have hres := ih (ti.add ⟨n0, idx, sh0⟩) (idx + 1) i0 n sh h1
        (fun j hj q hq => hlast (j + 1) (by omega) q (by simpa using hq))
      rw [hres]
      have harith : idx + 1 + i0 = idx + (i0 + 1) := by omega
      rw [harith]

/-- Length of the member list synthesized from a declaration list. -/
theorem membersFrom_length (decls : List (String × Shape)) :
    ∀ idx, (membersFrom idx decls).length = decls.length := by
  induction decls with
  | nil => intro idx; simp [membersFrom]
  | cons p rest ih =>
    intro idx
    obtain ⟨n, sh⟩ := p
    simp [membersFrom, ih]

/-- Indexing the synthesized member list reads the declaration at the same
position, with the offset shifted by the starting index. -/
theorem membersFrom_getElem (decls : List (String × Shape)) :
    ∀ (idx i : Nat), (membersFrom idx decls)[i]? =
      (decls[i]?).map (fun p => (⟨p.1, idx + i, p.2⟩ : Mem)) := by
  induction decls with
  | nil => intro idx i; simp [membersFrom]
  | cons p rest ih =>
    intro idx i
    obtain ⟨n, sh⟩ := p
    cases i with
    | zero => simp [membersFrom]
    | succ i0 =>
      simp [membersFrom, ih (idx + 1) i0]
      have harith : idx + 1 + i0 = idx + (i0 + 1) := by omega
      rw [harith]

/-- Member names of the synthesized list are the declared names in
order. -/
theorem membersFrom_names (decls : List (String × Shape)) :
    ∀ idx, (membersFrom idx decls).map Mem.m_name = decls.map Prod.fst := by
  induction decls with
  | nil => intro idx; simp [membersFrom]
  | cons p rest ih =>
    intro idx
    obtain ⟨n, sh⟩ := p
    simp [membersFrom, ih]

/-- Length of the default member values of a record. -/
theorem defaultFields_length (decls : List (String × Shape)) :
    (defaultFields decls).length = decls.length := by
  induction decls with
  | nil => simp [defaultFields]
  | cons p rest ih =>
    obtain ⟨n, sh⟩ := p
    simp [defaultFields, ih]

/-- Indexing the default member values reads the default of the declared
shape at that position. -/
theorem defaultFields_getElem (decls : List (String × Shape)) :
    ∀ (i : Nat), (defaultFields decls)[i]? =
      (decls[i]?).map (fun p => defaultRV p.2) := by
  induction decls with
  | nil => intro i; simp [defaultFields]
  | cons p rest ih =>
    intro i
    obtain ⟨n, sh⟩ := p
    cases i with
    | zero => simp [defaultFields]
    | succ i0 => simp [defaultFields, ih i0]

end rpoco

namespace rpoco

/-- Appending a fresh key at the back is found by lookup when the key was
absent before. -/
theorem lookup_append_absent (n : String) (v : Option Mem)
    (l : List (String × Option Mem)) (h : l.lookup n = none) :
    (l ++ [(n, v)]).lookup n = some v := by
  induction l with
  | nil => simp
  | cons p t ih =>
    obtain ⟨k, w⟩ := p
    rw [List.lookup_cons] at h
    rw [List.cons_append, List.lookup_cons]
    by_cases hk : n = k
    · subst hk
      simp at h
    · simp only [beq_false_of_ne hk] at h ⊢
      exact ih h

/-- One consume step of the record loop on a registered name is exactly a
field visit at the member offset followed by the rest of the loop. -/
theorem consumeMembers_cons_hit (ti : type_info) (vals : List RV)
    (n : String) (cv : Value) (rest : List (String × Value)) (m : Mem)
    (hhas : ti.has n = true) (hfind : ti.findNamed n = some m) :
    consumeMembers ti vals ((n, cv) :: rest) =
      (Mem.visit_consume m vals cv).bind
        (fun vals2 => consumeMembers ti vals2 rest) := by
  rw [consumeMembers]
  simp only [hhas, if_true, hfind, Mem.visit_consume]
  cases h : consume m.sh (vals.getD m.m_offset (.rRec [])) cv <;> simp [h]

/-- One consume step of the record loop on an unregistered name runs the
sink and leaves the record untouched. -/
theorem consumeMembers_cons_miss (ti : type_info) (vals : List RV)
    (n : String) (cv : Value) (rest : List (String × Value))
    (hhas : ti.has n = false) :
    consumeMembers ti vals ((n, cv) :: rest) = consumeMembers ti vals rest := by
  rw [consumeMembers]
  simp [hhas]

/-- Success characterization of the vector consume loop: one consumed
element per discovered item, in order, each read into a value-initialized
element. -/
theorem consumeItems_spec (e : Shape) :
    ∀ (items : List Value) (ys : List RV), consumeItems e items = some ys →
    ys.length = items.length ∧
    ∀ (i : Nat), ys[i]? = (items[i]?).bind (consume e (defaultRV e)) := by
  intro items
  induction items with
  | nil =>
    intro ys h
    rw [consumeItems] at h
    cases h
    constructor
    · rfl
    · intro i; simp
  | cons it rest ih =>
    intro ys h
    rw [consumeItems] at h
    cases hc : consume e (defaultRV e) it with
    | none => rw [hc] at h; simp at h
    | some y =>
      rw [hc] at h
      cases hr : consumeItems e rest with
      | none => rw [hr] at h; simp at h
      | some ys0 =>
        rw [hr] at h
        simp at h
        subst h
        obtain ⟨hlen, hget⟩ := ih ys0 hr
        constructor
        · simp [hlen]
        · intro i
          cases i with
          | zero => simp [hc]
          | succ j => simp [hget j]

/-- C9 helper: the registry built for one integer field. -/
theorem getStr_on_absent (ti : type_info) (n : String)
    (h : ti.has n = false) :
    (ti.getStr n).1 = none ∧ (ti.getStr n).2.has n = true := by
  unfold type_info.has at h
  unfold type_info.getStr
  cases hl : ti.m_named_fields.lookup n with
  | some v => rw [hl] at h; simp at h
  | none =>
    constructor
    · simp
    · unfold type_info.has
      simp only []
      rw [lookup_append_absent n none _ hl]
      rfl

end rpoco

namespace rpoco

/-- C9: on a built type_info, indexing by a name the table does not have
returns a null member pointer and, as a side effect, inserts an entry for
that name: has flips from false to true.  The string index silently grows
the supposedly read-only table instead of failing. -/
theorem C9_string_index_inserts (ti : type_info) (n : String)
    (h : ti.has n = false) :
    (ti.getStr n).1 = none ∧ (ti.getStr n).2.has n = true :=
  getStr_on_absent ti n h

/-- C9 witness: a registry with a single declared member x, indexed by the
absent name y. -/
theorem C9_string_index_inserts_witness :
    (rpoco_type_info_get [("x", .sInt)]).has "y" = false ∧
    ((rpoco_type_info_get [("x", .sInt)]).getStr "y").1 = none ∧
    ((rpoco_type_info_get [("x", .sInt)]).getStr "y").2.has "y" = true := by
  refine ⟨by decide, C9_string_index_inserts _ _ (by decide)⟩

/-- C5: owning-reference semantics of the pointer, shared_ptr and
unique_ptr visit specializations (one shared body): consuming a null unit
into an unset reference leaves it unset; consuming a non-null unit into an
unset reference allocates exactly one value-initialized instance and
populates it by recursing into the element shape; producing an unset
reference emits null; producing a set reference recurses into the held
instance. -/
theorem C5_reference_semantics (e : Shape) (v : Value) (x : RV) :
    consume (.sPtr e) .rPtrNone .vnull = some .rPtrNone ∧
    (kindOf v ≠ .vt_null →
      consume (.sPtr e) .rPtrNone v =
        (consume e (defaultRV e) v).map .rPtrSome) ∧
    produce (.sPtr e) .rPtrNone = .vnull ∧
    produce (.sPtr e) (.rPtrSome x) = produce e x := by
  refine ⟨?_, ?_, ?_, ?_⟩
  · rw [consume]
    simp [kindOf]
  · intro hv
    rw [consume]
    simp [hv]
  · rw [produce]
  · rw [produce]

/-- C5 witness: integer element, number unit 3, held instance 5. -/
theorem C5_reference_semantics_witness :
    kindOf (.vnum 3) ≠ .vt_null ∧
    consume (.sPtr .sInt) .rPtrNone (.vnum 3) =
      (consume .sInt (defaultRV .sInt) (.vnum 3)).map .rPtrSome := by
  exact ⟨by decide, (C5_reference_semantics .sInt (.vnum 3) (.rInt 5)).2.1 (by decide)⟩

end rpoco

namespace rpoco

/-- The registry-driven produce loop over macro-synthesized members equals
the declaration-driven child sequence the spec promises, at any starting
offset. -/
theorem produceMembers_membersFrom (vals : List RV) :
    ∀ (decls : List (String × Shape)) (idx : Nat),
    produceMembers (membersFrom idx decls) vals = prodFields vals decls idx := by
  intro decls
  induction decls with
  | nil => intro idx; rw [membersFrom, prodFields, produceMembers_nil]
  | cons p rest ih =>
    intro idx
    obtain ⟨n, sh⟩ := p
    rw [membersFrom, prodFields, produceMembers_cons, ih]

/-- Child names of the spec-side produced sequence are the declared names,
in declaration order. -/
theorem prodFields_names (vals : List RV) :
    ∀ (decls : List (String × Shape)) (idx : Nat),
    (prodFields vals decls idx).map Prod.fst = decls.map Prod.fst := by
  intro decls
  induction decls with
  | nil => intro idx; rw [prodFields]; rfl
  | cons p rest ih =>
    intro idx
    obtain ⟨n, sh⟩ := p
    rw [prodFields]
    simp [ih]

/-- Length of the spec-side produced child sequence. -/
theorem prodFields_length (vals : List RV) :
    ∀ (decls : List (String × Shape)) (idx : Nat),
    (prodFields vals decls idx).length = decls.length := by
  intro decls
  induction decls with
  | nil => intro idx; rw [prodFields]; rfl
  | cons p rest ih =>
    intro idx
    obtain ⟨n, sh⟩ := p
    rw [prodFields]
    simp [ih]

/-- C3: producing a record with N declared members emits an object of
exactly N children, each child the member name followed by the produced
member value, in declaration order — the field vector drives production,
never the name-indexed map. -/
theorem C3_declaration_order (decls : List (String × Shape)) (vals : List RV) :
    produce (.sRec decls) (.rRec vals) = .vobj (prodFields vals decls 0) ∧
    (prodFields vals decls 0).map Prod.fst = decls.map Prod.fst ∧
    (prodFields vals decls 0).length = decls.length := by
  refine ⟨?_, prodFields_names vals decls 0, prodFields_length vals decls 0⟩
  rw [produce]
  rw [show (rpoco_type_info_get decls).fields = membersFrom 0 decls from by
    rw [rpoco_type_info_get, expand_fields]
    rfl]
  rw [produceMembers_membersFrom]

/-- C10: declaring two members with the same name builds without failure:
the ordered field vector keeps both (size two, production emits the shared
name twice in declaration order), while the name-indexed lookup — and with
it consumption — resolves the name to the most recently added member, the
second declaration. -/
theorem C10_duplicate_names (n : String) (s1 s2 : Shape) (a b : RV)
    (cv : Value) :
    (rpoco_type_info_get [(n, s1), (n, s2)]).size = 2 ∧
    (rpoco_type_info_get [(n, s1), (n, s2)]).fields.map Mem.m_name = [n, n] ∧
    (rpoco_type_info_get [(n, s1), (n, s2)]).findNamed n =
      some ⟨n, 1, s2⟩ ∧
    produce (.sRec [(n, s1), (n, s2)]) (.rRec [a, b]) =
      .vobj [(n, produce s1 a), (n, produce s2 b)] ∧
    consume (.sRec [(n, s1), (n, s2)]) (.rRec [a, b]) (.vobj [(n, cv)]) =
      (consume s2 b cv).map (fun b2 => .rRec [a, b2]) := by
  have hfields : (rpoco_type_info_get [(n, s1), (n, s2)]).fields =
      [⟨n, 0, s1⟩, ⟨n, 1, s2⟩] := by
    rw [rpoco_type_info_get, expand_fields]
    rw [membersFrom, membersFrom, membersFrom]
    rfl
  have hfind : (rpoco_type_info_get [(n, s1), (n, s2)]).findNamed n =
      some ⟨n, 1, s2⟩ := by
    rw [rpoco_type_info_get]
    exact expand_findNamed_hit _ type_info.empty 0 1 n s2 (by simp)
      (fun j hj p hp => by
        rw [List.getElem?_eq_none (by simp; omega)] at hp
        cases hp)
  have hhas : (rpoco_type_info_get [(n, s1), (n, s2)]).has n = true := by
    rw [rpoco_type_info_get, expand_has]
    simp
  refine ⟨?_, ?_, hfind, ?_, ?_⟩
  · rw [type_info.size, hfields]
    rfl
  · rw [hfields]
    rfl
  · rw [produce, hfields, produceMembers_cons, produceMembers_cons,
      produceMembers_nil]
    simp
  · rw [consume]
    rw [consumeMembers_cons_hit _ _ _ _ _ _ hhas hfind]
    simp only [Mem.visit_consume]
    cases h : consume s2 b cv with
    | none => simp [h]
    | some b2 =>
      simp [h]
      rw [consumeMembers]

end rpoco

namespace rpoco

/-- C8: vector semantics.  Producing brackets an array and visits the
elements in container order.  A successful consume leaves every existing
element untouched and appends exactly one new element per discovered array
item, in item order, each populated by consuming the item into a
value-initialized element. -/
theorem C8_vector_semantics (e : Shape) (xs : List RV)
    (items : List Value) :
    produce (.sVec e) (.rVec xs) = .varr (produceItems e xs) ∧
    (∀ r, consume (.sVec e) (.rVec xs) (.varr items) = some r →
      ∃ ys, r = .rVec (xs ++ ys) ∧ ys.length = items.length ∧
        ∀ (i : Nat), ys[i]? = (items[i]?).bind (consume e (defaultRV e))) := by
  constructor
  · rw [produce]
  · intro r hr
    rw [consume] at hr
    cases hi : consumeItems e items with
    | none => rw [hi] at hr; cases hr
    | some ys =>
      rw [hi] at hr
      simp at hr
      obtain ⟨hlen, hget⟩ := consumeItems_spec e items ys hi
      exact ⟨ys, hr.symm, hlen, hget⟩

/-- C8 witness: consuming two number items into a vector already holding
one element. -/
theorem C8_vector_semantics_witness :
    ∃ r, consume (.sVec .sInt) (.rVec [.rInt 9]) (.varr [.vnum 1, .vnum 2]) =
        some r ∧
      ∃ ys, r = .rVec ([.rInt 9] ++ ys) ∧ ys.length = 2 ∧
        ∀ (i : Nat), ys[i]? =
          ([Value.vnum 1, Value.vnum 2][i]?).bind (consume .sInt (defaultRV .sInt)) := by
  have h : consume (.sVec .sInt) (.rVec [.rInt 9])
      (.varr [.vnum 1, .vnum 2]) = some (.rVec [.rInt 9, .rInt 1, .rInt 2]) := by
    rw [consume, consumeItems, consume, consumeItems, consume, consumeItems]
    rfl
  obtain ⟨ys, h1, h2, h3⟩ :=
    (C8_vector_semantics .sInt [.rInt 9] [.vnum 1, .vnum 2]).2 _ h
  exact ⟨_, h, ys, h1, h2, h3⟩

end rpoco

namespace rpoco

/-- C7: the field descriptor synthesized for the i-th declared member acts
as an accessor for exactly that member.  The registry stores it at field
position i with offset i; its produce-direction visit reads exactly the
value at offset i; a successful consume-direction visit stores the
consumed value at offset i and leaves every other offset unchanged; and
the record consume loop dispatches a registered child through exactly this
field visit. -/
theorem C7_field_accessor (decls : List (String × Shape)) (i : Nat)
    (n : String) (sh : Shape) (h : decls[i]? = some (n, sh)) :
    (rpoco_type_info_get decls).fields[i]? = some ⟨n, i, sh⟩ ∧
    (∀ vals, Mem.visit_produce ⟨n, i, sh⟩ vals =
      (vals[i]?).elim Value.vnull (produce sh)) ∧
    (∀ (vals : List RV) (v : Value) (vals2 : List RV), i < vals.length →
      Mem.visit_consume ⟨n, i, sh⟩ vals v = some vals2 →
      ∃ fv, consume sh (vals.getD i (.rRec [])) v = some fv ∧
        vals2 = vals.set i fv ∧ vals2[i]? = some fv ∧
        ∀ j, j ≠ i → vals2[j]? = vals[j]?) ∧
    (∀ (ti : type_info) (vals : List RV) (cv : Value)
        (rest : List (String × Value)),
      ti.has n = true → ti.findNamed n = some ⟨n, i, sh⟩ →
      consumeMembers ti vals ((n, cv) :: rest) =
        (Mem.visit_consume ⟨n, i, sh⟩ vals cv).bind
          (fun vals2 => consumeMembers ti vals2 rest)) := by
  refine ⟨?_, ?_, ?_, ?_⟩
  · rw [rpoco_type_info_get, expand_fields]
    simp only [type_info.empty, List.nil_append]
    rw [membersFrom_getElem, h]
    simp
  · intro vals
    rfl
  · intro vals v vals2 hlen hc
    unfold Mem.visit_consume at hc
    cases hcons : consume sh (vals.getD i (.rRec [])) v with
    | none => simp only [hcons] at hc; cases hc
    | some fv =>
      rw [hcons] at hc
      have hv2 : vals2 = vals.set i fv := by
        cases hc
        rfl
      subst hv2
      refine ⟨fv, rfl, rfl, ?_, ?_⟩
      · exact List.getElem?_set_eq hlen
      · intro j hj
        exact List.getElem?_set_ne (Ne.symm hj)
  · intro ti vals cv rest hhas hfind
    exact consumeMembers_cons_hit ti vals n cv rest _ hhas hfind

end rpoco

namespace rpoco

/-- C7 witness: the second declared member of a two-member record. -/
theorem C7_field_accessor_witness :
    (rpoco_type_info_get [("a", Shape.sStr), ("x", Shape.sInt)]).fields[1]? =
        some ⟨"x", 1, .sInt⟩ ∧
    Mem.visit_produce ⟨"x", 1, .sInt⟩ [.rStr "hi", .rInt 7] =
        ([RV.rStr "hi", RV.rInt 7][1]?).elim Value.vnull (produce .sInt) := by
  have hmain := C7_field_accessor [("a", .sStr), ("x", .sInt)] 1 "x" .sInt rfl
  exact ⟨hmain.1, hmain.2.1 _⟩

/-- The record consume loop ignores children whose names the registry does
not have: dropping them from the input changes nothing. -/
theorem consumeMembers_filter (ti : type_info) :
    ∀ (children : List (String × Value)) (vals : List RV),
    consumeMembers ti vals children =
      consumeMembers ti vals (children.filter (fun c => ti.has c.1)) := by
  intro children
  induction children with
  | nil => intro vals; rfl
  | cons c rest ih =>
    intro vals
    obtain ⟨n, cv⟩ := c
    cases h : ti.has n with
    | false =>
      rw [consumeMembers_cons_miss ti vals n cv rest h]
      rw [List.filter_cons]
      simp only [h]
      exact ih vals
    | true =>
      rw [List.filter_cons]
      simp only [h, if_true]
      rw [consumeMembers, consumeMembers]
      simp only [h, if_true]
      cases hf : ti.findNamed n with
      | none => simp only [hf]
      | some m =>
        simp only [hf]
        cases hc : consume m.sh (vals.getD m.m_offset (.rRec [])) cv with
        | none => simp only [hc]
        | some fv =>
          simp only [hc]
          exact ih (vals.set m.m_offset fv)

/-- C4: consuming an object into a record routes every child whose name
has no registered member to the discard sink, never failing on it: the
outcome — declared member values included — is exactly the outcome on the
input with the unknown children removed, whatever shape the unknown
children have; and an input of only unknown children leaves the record
exactly as it was. -/
theorem C4_unknown_fields (decls : List (String × Shape)) (vals : List RV)
    (children : List (String × Value)) :
    consume (.sRec decls) (.rRec vals) (.vobj children) =
      consume (.sRec decls) (.rRec vals)
        (.vobj (children.filter
          (fun c => (rpoco_type_info_get decls).has c.1))) ∧
    ((∀ c ∈ children, (rpoco_type_info_get decls).has c.1 = false) →
      consume (.sRec decls) (.rRec vals) (.vobj children) =
        some (.rRec vals)) := by
  constructor
  · rw [consume, consume]
    rw [consumeMembers_filter (rpoco_type_info_get decls) children vals]
  · intro hall
    rw [consume]
    rw [consumeMembers_filter (rpoco_type_info_get decls) children vals]
    have hnil : children.filter
        (fun c => (rpoco_type_info_get decls).has c.1) = [] := by
      rw [List.filter_eq_nil_iff]
      intro c hc
      simp [hall c hc]
    rw [hnil, consumeMembers]
    rfl

/-- C4 witness: a nested-object unknown child consumed into a one-field
record leaves the field value 3 in place. -/
theorem C4_unknown_fields_witness :
    (∀ c ∈ [("u", Value.vobj [("deep", Value.varr [Value.vnull])])],
      (rpoco_type_info_get [("x", Shape.sInt)]).has c.1 = false) ∧
    consume (.sRec [("x", .sInt)]) (.rRec [.rInt 3])
        (.vobj [("u", .vobj [("deep", .varr [.vnull])])]) =
      some (.rRec [.rInt 3]) := by
  have hu : ∀ c ∈ [("u", Value.vobj [("deep", Value.varr [Value.vnull])])],
      (rpoco_type_info_get [("x", Shape.sInt)]).has c.1 = false := by
    intro c hc
    simp at hc
    subst hc
    decide
  exact ⟨hu, (C4_unknown_fields [("x", .sInt)] [.rInt 3] _).2 hu⟩

end rpoco

namespace rpoco

/-- Leaf visits in a concatenated trace add up. -/
theorem leafEventCount_append (a b : List VEvent) :
    leafEventCount (a ++ b) = leafEventCount a + leafEventCount b := by
  induction a with
  | nil => simp [leafEventCount]
  | cons ev rest ih =>
    rw [List.cons_append]
    cases ev <;> simp [leafEventCount, ih] <;> omega

/-- Consume starts in a concatenated trace add up. -/
theorem consumeStartCount_append (a b : List VEvent) :
    consumeStartCount (a ++ b) = consumeStartCount a + consumeStartCount b := by
  induction a with
  | nil => simp [consumeStartCount]
  | cons ev rest ih =>
    rw [List.cons_append]
    cases ev <;> simp [consumeStartCount, ih] <;> omega

/-- Sink trace counts over an array, given the counts of every item. -/
theorem nilVisitArr_counts (items : List Value)
    (H : ∀ it ∈ items, leafEventCount (nilVisit it) = scalarNodeCount it ∧
      consumeStartCount (nilVisit it) = compositeNodeCount it) :
    leafEventCount (nilVisitArr items) = scalarNodeCountArr items ∧
    consumeStartCount (nilVisitArr items) = compositeNodeCountArr items := by
  induction items with
  | nil =>
    rw [nilVisitArr, scalarNodeCountArr, compositeNodeCountArr]
    exact ⟨rfl, rfl⟩
  | cons it rest ih =>
    obtain ⟨h1, h2⟩ := H it (List.mem_cons_self it rest)
    obtain ⟨h3, h4⟩ := ih (fun x hx => H x (List.mem_cons_of_mem _ hx))
    rw [nilVisitArr, scalarNodeCountArr, compositeNodeCountArr]
    constructor
    · simp_arith [leafEventCount, leafEventCount_append, h1, h3]
    · simp_arith [consumeStartCount, consumeStartCount_append, h2, h4]

/-- Sink trace counts over an object, given the counts of every child. -/
theorem nilVisitObj_counts (children : List (String × Value))
    (H : ∀ c ∈ children, leafEventCount (nilVisit c.2) = scalarNodeCount c.2 ∧
      consumeStartCount (nilVisit c.2) = compositeNodeCount c.2) :
    leafEventCount (nilVisitObj children) = scalarNodeCountObj children ∧
    consumeStartCount (nilVisitObj children) = compositeNodeCountObj children := by
  induction children with
  | nil =>
    rw [nilVisitObj, scalarNodeCountObj, compositeNodeCountObj]
    exact ⟨rfl, rfl⟩
  | cons c rest ih =>
    obtain ⟨n, cv⟩ := c
    obtain ⟨h1, h2⟩ := H (n, cv) (List.mem_cons_self _ rest)
    obtain ⟨h3, h4⟩ := ih (fun x hx => H x (List.mem_cons_of_mem _ hx))
    rw [nilVisitObj, scalarNodeCountObj, compositeNodeCountObj]
    constructor
    · simp_arith [leafEventCount, leafEventCount_append, h1, h3]
    · simp_arith [consumeStartCount, consumeStartCount_append, h2, h4]

/-- The sink fully drains any value: its trace reads every scalar node
exactly once and opens every composite node exactly once. -/
theorem nilVisit_drains (v : Value) :
    leafEventCount (nilVisit v) = scalarNodeCount v ∧
    consumeStartCount (nilVisit v) = compositeNodeCount v := by
  have H : ∀ (N : Nat) (w : Value), sizeOf w ≤ N →
      leafEventCount (nilVisit w) = scalarNodeCount w ∧
      consumeStartCount (nilVisit w) = compositeNodeCount w := by
    intro N
    induction N with
    | zero => intro w hw; cases w <;> simp at hw
    | succ N ih =>
      intro w hw
      match w with
      | .vnull => exact ⟨rfl, rfl⟩
      | .vnum n => exact ⟨rfl, rfl⟩
      | .vbool b => exact ⟨rfl, rfl⟩
      | .vstr s => exact ⟨rfl, rfl⟩
      | .varr items =>
        have harr := nilVisitArr_counts items (fun it hit => by
          apply ih
          have h1 : sizeOf it < sizeOf (Value.varr items) := by
            have := List.sizeOf_lt_of_mem hit
            simp
            omega
          omega)
        rw [nilVisit, scalarNodeCount, compositeNodeCount]
        constructor
        · simp_arith [leafEventCount, harr.1]
        · simp_arith [consumeStartCount, harr.2]
      | .vobj children =>
        have hobj := nilVisitObj_counts children (fun c hc => by
          apply ih
          have h1 : sizeOf c.2 < sizeOf (Value.vobj children) := by
            have h2 := List.sizeOf_lt_of_mem hc
            obtain ⟨cn, cval⟩ := c
            simp at h2 ⊢
            omega
          omega)
        rw [nilVisit, scalarNodeCount, compositeNodeCount]
        constructor
        · simp_arith [leafEventCount, hobj.1]
        · simp_arith [consumeStartCount, hobj.2]
  exact H (sizeOf v) v (Nat.le_refl _)

end rpoco

namespace rpoco

/-- C6: the discard sink peeks the kind of the next unit; a scalar kind
performs exactly one leaf visit into a throwaway value; a composite kind
starts one structured consume and recurses the sink once per discovered
child; across arbitrarily nested input it reads every scalar node exactly
once and opens every composite node exactly once (full drain); and the
record consume loop around it never changes caller-visible record state on
a sink-routed child. -/
theorem C6_discard_sink (v : Value) :
    nilVisit .vnull = [.peek .vt_null, .leafNull] ∧
    (∀ n : Int, nilVisit (.vnum n) = [.peek .vt_number, .leafNumber]) ∧
    (∀ b, nilVisit (.vbool b) = [.peek .vt_bool, .leafBool]) ∧
    (∀ s, nilVisit (.vstr s) = [.peek .vt_string, .leafString]) ∧
    (∀ items, nilVisit (.varr items) =
      .peek .vt_array :: .consumeStart .vt_array :: nilVisitArr items) ∧
    (∀ children, nilVisit (.vobj children) =
      .peek .vt_object :: .consumeStart .vt_object :: nilVisitObj children) ∧
    (∀ (it : Value) (rest : List Value), nilVisitArr (it :: rest) =
      .childKey "" :: nilVisit it ++ nilVisitArr rest) ∧
    (∀ (n : String) (cv : Value) (rest : List (String × Value)),
      nilVisitObj ((n, cv) :: rest) =
        .childKey n :: nilVisit cv ++ nilVisitObj rest) ∧
    leafEventCount (nilVisit v) = scalarNodeCount v ∧
    consumeStartCount (nilVisit v) = compositeNodeCount v ∧
    (∀ (ti : type_info) (vals : List RV) (n : String) (cv : Value)
        (rest : List (String × Value)), ti.has n = false →
      consumeMembers ti vals ((n, cv) :: rest) =
        consumeMembers ti vals rest) := by
  refine ⟨rfl, fun n => rfl, fun b => rfl, fun s => rfl, fun items => rfl,
    fun children => rfl, fun it rest => rfl, fun n cv rest => rfl,
    (nilVisit_drains v).1, (nilVisit_drains v).2,
    fun ti vals n cv rest h => consumeMembers_cons_miss ti vals n cv rest h⟩

/-- C6 witness: a nested array-in-object unit drained by the sink while
being routed past a one-field record. -/
theorem C6_discard_sink_witness :
    leafEventCount (nilVisit (.vobj [("deep", .varr [.vnull, .vnum 4])])) =
      scalarNodeCount (.vobj [("deep", .varr [.vnull, .vnum 4])]) ∧
    (rpoco_type_info_get [("x", Shape.sInt)]).has "u" = false ∧
    consumeMembers (rpoco_type_info_get [("x", Shape.sInt)]) [.rInt 3]
        [("u", .vobj [("deep", .varr [.vnull, .vnum 4])])] =
      consumeMembers (rpoco_type_info_get [("x", Shape.sInt)]) [.rInt 3] [] := by
  refine ⟨(C6_discard_sink (.vobj [("deep", .varr [.vnull, .vnum 4])])).2.2.2.2.2.2.2.2.1,
    by decide, ?_⟩
  exact (C6_discard_sink .vnull).2.2.2.2.2.2.2.2.2.2
    (rpoco_type_info_get [("x", Shape.sInt)]) [.rInt 3] "u"
    (.vobj [("deep", .varr [.vnull, .vnum 4])]) [] (by decide)

end rpoco

namespace rpoco

/-- Shape inversion: an integer-shaped well-formed value is an integer. -/
theorem wf_inv_int (v : RV) (h : wfB .sInt v = true) : ∃ n, v = .rInt n := by
  cases v <;> simp_all [wfB]

/-- Shape inversion for bool. -/
theorem wf_inv_bool (v : RV) (h : wfB .sBool v = true) : ∃ b, v = .rBool b := by
  cases v <;> simp_all [wfB]

/-- Shape inversion for string. -/
theorem wf_inv_str (v : RV) (h : wfB .sStr v = true) : ∃ s, v = .rStr s := by
  cases v <;> simp_all [wfB]

/-- Shape inversion for vectors. -/
theorem wf_inv_vec (e : Shape) (v : RV) (h : wfB (.sVec e) v = true) :
    ∃ xs, v = .rVec xs ∧ wfItems e xs = true := by
  cases v <;> simp_all [wfB]

/-- Shape inversion for maps. -/
theorem wf_inv_map (e : Shape) (v : RV) (h : wfB (.sMap e) v = true) :
    ∃ es, v = .rMap es ∧ keysSorted es = true ∧ wfEntries e es = true := by
  cases v <;> simp_all [wfB]

/-- Shape inversion for records. -/
theorem wf_inv_rec (decls : List (String × Shape)) (v : RV)
    (h : wfB (.sRec decls) v = true) :
    ∃ vals, v = .rRec vals ∧ (decls.map Prod.fst).Nodup ∧
      wfFields decls vals = true := by
  cases v <;> simp_all [wfB]

/-- Shape inversion for owning references. -/
theorem wf_inv_ptr (e : Shape) (v : RV) (h : wfB (.sPtr e) v = true) :
    v = .rPtrNone ∨ ∃ x, v = .rPtrSome x ∧ wfB e x = true := by
  cases v <;> simp_all [wfB]

/-- A canonical set reference holds a canonical value that is itself
set or not a reference. -/
theorem canon_inv_ptrSome (x : RV) (h : canonB (.rPtrSome x) = true) :
    x ≠ .rPtrNone ∧ canonB x = true := by
  cases x <;> simp_all [canonB]

/-- Canonical records have canonical member values. -/
theorem canon_inv_rec (vals : List RV) (h : canonB (.rRec vals) = true) :
    canonList vals = true := by
  simpa [canonB] using h

/-- Canonical vectors have canonical elements. -/
theorem canon_inv_vec (xs : List RV) (h : canonB (.rVec xs) = true) :
    canonList xs = true := by
  simpa [canonB] using h

/-- Canonical maps have canonical entry values. -/
theorem canon_inv_map (es : List (String × RV)) (h : canonB (.rMap es) = true) :
    canonEntries es = true := by
  simpa [canonB] using h

/-- Pointwise canonicity of list values. -/
theorem canonList_mem : ∀ (xs : List RV), canonList xs = true →
    ∀ x ∈ xs, canonB x = true := by
  intro xs
  induction xs with
  | nil => intro _ x hx; cases hx
  | cons y rest ih =>
    intro h x hx
    rw [canonList] at h
    simp at h
    rcases List.mem_cons.mp hx with rfl | hx2
    · exact h.1
    · exact ih h.2 x hx2

/-- Pointwise canonicity of map entry values. -/
theorem canonEntries_mem : ∀ (es : List (String × RV)),
    canonEntries es = true → ∀ p ∈ es, canonB p.2 = true := by
  intro es
  induction es with
  | nil => intro _ p hp; cases hp
  | cons q rest ih =>
    intro h p hp
    obtain ⟨k, x⟩ := q
    rw [canonEntries] at h
    simp at h
    rcases List.mem_cons.mp hp with rfl | hp2
    · exact h.1
    · exact ih h.2 p hp2

/-- Pointwise well-formedness of vector elements. -/
theorem wfItems_mem (e : Shape) : ∀ (xs : List RV), wfItems e xs = true →
    ∀ x ∈ xs, wfB e x = true := by
  intro xs
  induction xs with
  | nil => intro _ x hx; cases hx
  | cons y rest ih =>
    intro h x hx
    rw [wfItems] at h
    simp at h
    rcases List.mem_cons.mp hx with rfl | hx2
    · exact h.1
    · exact ih h.2 x hx2

/-- Pointwise well-formedness of map entry values. -/
theorem wfEntries_mem (e : Shape) : ∀ (es : List (String × RV)),
    wfEntries e es = true → ∀ p ∈ es, wfB e p.2 = true := by
  intro es
  induction es with
  | nil => intro _ p hp; cases hp
  | cons q rest ih =>
    intro h p hp
    obtain ⟨k, x⟩ := q
    rw [wfEntries] at h
    simp at h
    rcases List.mem_cons.mp hp with rfl | hp2
    · exact h.1
    · exact ih h.2 p hp2

/-- A record matching its declarations has one value per declaration. -/
theorem wfFields_length : ∀ (decls : List (String × Shape)) (vals : List RV),
    wfFields decls vals = true → vals.length = decls.length := by
  intro decls
  induction decls with
  | nil =>
    intro vals h
    cases vals with
    | nil => rfl
    | cons x xs => simp [wfFields] at h
  | cons d rest ih =>
    intro vals h
    obtain ⟨n, sh⟩ := d
    cases vals with
    | nil => simp [wfFields] at h
    | cons x xs =>
      rw [wfFields] at h
      simp at h
      simp [ih xs h.2]

/-- Indexed well-formedness of record member values. -/
theorem wfFields_getElem : ∀ (decls : List (String × Shape)) (vals : List RV),
    wfFields decls vals = true →
    ∀ (i : Nat) (n : String) (sh : Shape) (x : RV),
      decls[i]? = some (n, sh) → vals[i]? = some x → wfB sh x = true := by
  intro decls
  induction decls with
  | nil => intro vals _ i n sh x hd; simp at hd
  | cons d rest ih =>
    intro vals h i n sh x hd hv
    obtain ⟨n0, sh0⟩ := d
    cases vals with
    | nil => simp [wfFields] at h
    | cons y ys =>
      rw [wfFields] at h
      simp at h
      cases i with
      | zero =>
        have hpair : n0 = n ∧ sh0 = sh := by simpa using hd
        have h2 : y = x := by simpa using hv
        obtain ⟨hn, hs⟩ := hpair
        subst hs; subst h2
        exact h.1
      | succ j =>
        exact ih ys h.2 j n sh x (by simpa using hd) (by simpa using hv)

end rpoco

namespace rpoco

/-- A well-formed canonical value that is not an unset reference never
produces the null unit. -/
theorem produce_ne_vnull : ∀ (N : Nat) (v : RV), sizeOf v ≤ N → ∀ (sh : Shape),
    wfB sh v = true → canonB v = true → v ≠ .rPtrNone →
    produce sh v ≠ .vnull := by
  intro N
  induction N with
  | zero => intro v hv; cases v <;> simp at hv
  | succ N ih =>
    intro v hv sh hwf hcanon hne
    cases sh with
    | sInt =>
      obtain ⟨n, rfl⟩ := wf_inv_int v hwf
      rw [produce]
      simp
    | sBool =>
      obtain ⟨b, rfl⟩ := wf_inv_bool v hwf
      rw [produce]
      simp
    | sStr =>
      obtain ⟨s, rfl⟩ := wf_inv_str v hwf
      rw [produce]
      simp
    | sVec e =>
      obtain ⟨xs, rfl, _⟩ := wf_inv_vec e v hwf
      rw [produce]
      simp
    | sMap e =>
      obtain ⟨es, rfl, _, _⟩ := wf_inv_map e v hwf
      rw [produce]
      simp
    | sRec decls =>
      obtain ⟨vals, rfl, _, _⟩ := wf_inv_rec decls v hwf
      rw [produce]
      simp
    | sPtr e =>
      rcases wf_inv_ptr e v hwf with rfl | ⟨x, rfl, hwfx⟩
      · exact absurd rfl hne
      · obtain ⟨hxne, hxcanon⟩ := canon_inv_ptrSome x hcanon
        rw [produce]
        exact ih x (by simp at hv; omega) e hwfx hxcanon hxne

/-- Vector loop round trip, given the round trip of every element. -/
theorem consumeItems_of_each (e : Shape) : ∀ (xs : List RV),
    (∀ x ∈ xs, consume e (defaultRV e) (produce e x) = some x) →
    consumeItems e (produceItems e xs) = some xs := by
  intro xs
  induction xs with
  | nil => intro _; rw [produceItems, consumeItems]
  | cons x rest ih =>
    intro H
    rw [produceItems, consumeItems]
    rw [H x (List.mem_cons_self x rest)]
    rw [ih (fun y hy => H y (List.mem_cons_of_mem _ hy))]
    rfl

/-- A strictly ascending key is absent from an entry list whose keys all
precede it. -/
theorem lookup_none_of_lt (k : String) : ∀ (cur : List (String × RV)),
    (∀ p ∈ cur, p.1 < k) → cur.lookup k = none := by
  intro cur
  induction cur with
  | nil => intro _; rfl
  | cons p rest ih =>
    intro H
    obtain ⟨k0, x0⟩ := p
    have hk0 : k0 < k := H (k0, x0) (List.mem_cons_self _ _)
    rw [List.lookup_cons]
    have : k ≠ k0 := (ne_of_lt hk0).symm
    simp only [beq_false_of_ne this]
    exact ih (fun q hq => H q (List.mem_cons_of_mem _ hq))

/-- Assigning a key strictly above every present key appends the entry at
the back, exactly where std::map places it. -/
theorem mapAssign_append (k : String) (nv : RV) : ∀ (cur : List (String × RV)),
    (∀ p ∈ cur, p.1 < k) → mapAssign k nv cur = cur ++ [(k, nv)] := by
  intro cur
  induction cur with
  | nil => intro _; rfl
  | cons p rest ih =>
    intro H
    obtain ⟨k0, x0⟩ := p
    have hk0 : k0 < k := H (k0, x0) (List.mem_cons_self _ _)
    rw [mapAssign]
    rw [if_neg (by exact fun hlt => absurd (lt_trans hk0 hlt) (lt_irrefl k0))]
    rw [if_pos hk0]
    rw [ih (fun q hq => H q (List.mem_cons_of_mem _ hq))]
    rfl

/-- Tail of a sorted entry list is sorted, and the head key precedes every
tail key. -/
theorem keysSorted_cons : ∀ (rest : List (String × RV)) (k : String) (x : RV),
    keysSorted ((k, x) :: rest) = true →
    keysSorted rest = true ∧ ∀ p ∈ rest, k < p.1 := by
  intro rest
  induction rest with
  | nil => intro k x _; exact ⟨rfl, fun p hp => absurd hp (List.not_mem_nil p)⟩
  | cons q rest2 ih =>
    intro k x h
    obtain ⟨k2, x2⟩ := q
    rw [keysSorted, Bool.and_eq_true, decide_eq_true_eq] at h
    obtain ⟨hk, hrest⟩ := h
    refine ⟨hrest, ?_⟩
    intro p hp
    rcases List.mem_cons.mp hp with rfl | hp2
    · exact hk
    · exact lt_trans hk ((ih k2 x2 hrest).2 p hp2)

/-- Map loop round trip: consuming the produced entries of a sorted map
into an accumulator whose keys all precede them appends the entries in
order. -/
theorem consumeEntries_of_each (e : Shape) :
    ∀ (es cur : List (String × RV)),
    keysSorted es = true →
    (∀ p ∈ cur, ∀ q ∈ es, p.1 < q.1) →
    (∀ p ∈ es, consume e (defaultRV e) (produce e p.2) = some p.2) →
    consumeEntries e cur (produceEntries e es) = some (cur ++ es) := by
  intro es
  induction es with
  | nil => intro cur _ _ _; rw [produceEntries, consumeEntries]; simp
  | cons q rest ih =>
    intro cur hsorted hcross H
    obtain ⟨k, x⟩ := q
    obtain ⟨hrest_sorted, hhead⟩ := keysSorted_cons rest k x hsorted
    have hcur_lt : ∀ p ∈ cur, p.1 < k :=
      fun p hp => hcross p hp (k, x) (List.mem_cons_self _ _)
    rw [produceEntries, consumeEntries]
    rw [lookup_none_of_lt k cur hcur_lt]
    simp only [Option.getD_none]
    rw [H (k, x) (List.mem_cons_self _ _)]
    show consumeEntries e (mapAssign k x cur) (produceEntries e rest) =
      some (cur ++ (k, x) :: rest)
    rw [mapAssign_append k x cur hcur_lt]
    rw [ih (cur ++ [(k, x)]) hrest_sorted ?cross
      (fun p hp => H p (List.mem_cons_of_mem _ hp))]
    · simp
    case cross =>
      intro p hp q hq
      rcases List.mem_append.mp hp with hp1 | hp1
      · exact lt_trans (hcur_lt p hp1) (hhead q hq)
      · have : p = (k, x) := by simpa using hp1
        subst this
        exact hhead q hq

end rpoco

namespace rpoco

/-- Setting the boundary position of a consumed-prefix, default-suffix
record state moves the boundary one member forward. -/
theorem set_boundary (vals dfts : List RV) (k : Nat) (x : RV)
    (hk : vals[k]? = some x) (hd : k < dfts.length) :
    (vals.take k ++ dfts.drop k).set k x =
      vals.take (k + 1) ++ dfts.drop (k + 1) := by
  have hkv : k < vals.length := by
    by_contra hc
    rw [List.getElem?_eq_none (by omega)] at hk
    cases hk
  have hlen : (vals.take k).length = k := List.length_take_of_le (by omega)
  rw [List.set_append_right _ _ (by omega), hlen]
  have h0 : k - k = 0 := by omega
  rw [h0]
  rw [List.drop_eq_getElem_cons hd]
  have hset : (dfts[k] :: dfts.drop (k + 1)).set 0 x = x :: dfts.drop (k + 1) := rfl
  rw [hset]
  rw [List.take_succ, hk]
  have htl : (some x).toList = [x] := rfl
  rw [htl, List.append_assoc, List.singleton_append]

/-- Reading the boundary position of a consumed-prefix, default-suffix
record state yields the default stored there. -/
theorem boundary_getD (vals dfts : List RV) (k : Nat) (hkv : k ≤ vals.length)
    (y : RV) (hy : dfts[k]? = some y) :
    (vals.take k ++ dfts.drop k).getD k (.rRec []) = y := by
  have hlen : (vals.take k).length = k := List.length_take_of_le hkv
  rw [List.getD_eq_getElem?_getD]
  rw [List.getElem?_append_right (by omega), hlen]
  have h0 : k - k = 0 := by omega
  rw [h0, List.getElem?_drop, Nat.add_zero, hy]
  rfl

/-- With distinct declared names, the declaration at position k is the
last (only) one bearing its name. -/
theorem nodup_last_occurrence (decls : List (String × Shape))
    (hn : (decls.map Prod.fst).Nodup) (k : Nat) (n : String) (sh : Shape)
    (hk : decls[k]? = some (n, sh)) :
    ∀ j, k < j → ∀ p, decls[j]? = some p → p.1 ≠ n := by
  intro j hj p hp
  have hkL : k < decls.length := by
    by_contra hc
    rw [List.getElem?_eq_none (by omega)] at hk
    cases hk
  have hjL : j < decls.length := by
    by_contra hc
    rw [List.getElem?_eq_none (by omega)] at hp
    cases hp
  have hne := List.pairwise_iff_getElem.mp hn k j
    (by simpa using hkL) (by simpa using hjL) hj
  rw [List.getElem_map, List.getElem_map] at hne
  have hk2 : decls[k] = (n, sh) := by
    have h3 := List.getElem?_eq_getElem hkL
    rw [hk] at h3
    exact (Option.some.inj h3).symm
  have hp2 : decls[j] = p := by
    have h3 := List.getElem?_eq_getElem hjL
    rw [hp] at h3
    exact (Option.some.inj h3).symm
  rw [hk2, hp2] at hne
  exact fun he => hne (by rw [he])

/-- One successful registered-member step of the record consume loop, with
the member spelled out. -/
theorem consumeMembers_step (ti : type_info) (vals : List RV) (n : String)
    (cv : Value) (rest : List (String × Value)) (off : Nat) (shp : Shape)
    (fv : RV) (hhas : ti.has n = true)
    (hfind : ti.findNamed n = some ⟨n, off, shp⟩)
    (hc : consume shp (vals.getD off (.rRec [])) cv = some fv) :
    consumeMembers ti vals ((n, cv) :: rest) =
      consumeMembers ti (vals.set off fv) rest := by
  rw [consumeMembers_cons_hit ti vals n cv rest _ hhas hfind]
  simp only [Mem.visit_consume, hc]
  rfl

/-- Record loop round trip: consuming, from member position k on, the
children the registry-driven produce emits for those members turns the
consumed-prefix, default-suffix state into the full record value. -/
theorem consumeMembers_of_each (decls : List (String × Shape))
    (vals : List RV) (hnodup : (decls.map Prod.fst).Nodup)
    (hlen : vals.length = decls.length)
    (H : ∀ (i : Nat) (n : String) (sh : Shape) (x : RV),
      decls[i]? = some (n, sh) → vals[i]? = some x →
      consume sh (defaultRV sh) (produce sh x) = some x) :
    ∀ (m k : Nat), decls.length - k = m → k ≤ decls.length →
    consumeMembers (rpoco_type_info_get decls)
        (vals.take k ++ (defaultFields decls).drop k)
        (prodFields vals (decls.drop k) k) = some vals := by
  intro m
  induction m with
  | zero =>
    intro k hm hk
    have hkl : k = decls.length := by omega
    subst hkl
    rw [List.drop_length, prodFields, consumeMembers]
    rw [List.take_of_length_le (by omega)]
    have hdd : (defaultFields decls).drop decls.length = [] :=
      List.drop_eq_nil_of_le (by rw [defaultFields_length])
    rw [hdd]
    simp
  | succ m ih =>
    intro k hm hk
    have hkL : k < decls.length := by omega
    obtain ⟨⟨n, sh⟩, hdk⟩ : ∃ p, decls[k]? = some p := by
      rw [List.getElem?_eq_getElem hkL]
      exact ⟨_, rfl⟩
    have hdrop : decls.drop k = (n, sh) :: decls.drop (k + 1) := by
      rw [List.drop_eq_getElem_cons hkL]
      congr
      have h3 := List.getElem?_eq_getElem hkL
      rw [hdk] at h3
      exact (Option.some.inj h3).symm
    obtain ⟨x, hx⟩ : ∃ x, vals[k]? = some x := by
      rw [List.getElem?_eq_getElem (show k < vals.length by omega)]
      exact ⟨_, rfl⟩
    rw [hdrop, prodFields]
    have hchild : (vals[k]?).elim Value.vnull (produce sh) = produce sh x := by
      rw [hx]
      rfl
    rw [hchild]
    have hhas : (rpoco_type_info_get decls).has n = true := by
      rw [rpoco_type_info_get, expand_has]
      have hmem : n ∈ decls.map Prod.fst :=
        List.mem_map.mpr ⟨(n, sh), List.getElem?_mem hdk, rfl⟩
      simp [hmem]
    have hfind : (rpoco_type_info_get decls).findNamed n = some ⟨n, k, sh⟩ := by
      rw [rpoco_type_info_get]
      have h4 := expand_findNamed_hit decls type_info.empty 0 k n sh hdk
        (nodup_last_occurrence decls hnodup k n sh hdk)
      simpa using h4
    have hdfl : (defaultFields decls)[k]? = some (defaultRV sh) := by
      rw [defaultFields_getElem, hdk]
      rfl
    have hget : (vals.take k ++ (defaultFields decls).drop k).getD k
        (.rRec []) = defaultRV sh :=
      boundary_getD vals (defaultFields decls) k (by omega) _ hdfl
    have hc : consume sh
        ((vals.take k ++ (defaultFields decls).drop k).getD k (.rRec []))
        (produce sh x) = some x := by
      rw [hget]
      exact H k n sh x hdk hx
    rw [consumeMembers_step _ _ _ _ _ k sh x hhas hfind hc]
    rw [set_boundary vals (defaultFields decls) k x hx
      (by rw [defaultFields_length]; omega)]
    exact ih (k + 1) (by omega) (by omega)

end rpoco

namespace rpoco

/-- Only the null unit peeks as the null kind. -/
theorem kindOf_ne_null (w : Value) (h : w ≠ .vnull) : kindOf w ≠ .vt_null := by
  cases w <;> simp [kindOf] at h ⊢

/-- Round trip, bounded induction form: producing a well-formed canonical
value and consuming the result into a value-initialized target
reconstructs the value. -/
theorem roundtrip_bounded : ∀ (N : Nat) (v : RV), sizeOf v ≤ N →
    ∀ (sh : Shape), wfB sh v = true → canonB v = true →
    consume sh (defaultRV sh) (produce sh v) = some v := by
  intro N
  induction N with
  | zero => intro v hv; cases v <;> simp at hv
  | succ N ih =>
    intro v hv sh hwf hcanon
    cases sh with
    | sInt =>
      obtain ⟨n, rfl⟩ := wf_inv_int v hwf
      rw [produce, defaultRV, consume]
    | sBool =>
      obtain ⟨b, rfl⟩ := wf_inv_bool v hwf
      rw [produce, defaultRV, consume]
    | sStr =>
      obtain ⟨s, rfl⟩ := wf_inv_str v hwf
      rw [produce, defaultRV, consume]
    | sVec e =>
      obtain ⟨xs, rfl, hitems⟩ := wf_inv_vec e v hwf
      have hcl := canon_inv_vec xs hcanon
      rw [produce, defaultRV, consume]
      rw [consumeItems_of_each e xs (fun x hx => by
        apply ih x ?bound e (wfItems_mem e xs hitems x hx)
          (canonList_mem xs hcl x hx)
        case bound =>
          have := List.sizeOf_lt_of_mem hx
          simp at hv
          omega)]
      simp
    | sMap e =>
      obtain ⟨es, rfl, hsorted, hentries⟩ := wf_inv_map e v hwf
      have hce := canon_inv_map es hcanon
      rw [produce, defaultRV, consume]
      rw [consumeEntries_of_each e es []  hsorted
        (fun p hp q hq => absurd hp (List.not_mem_nil p))
        (fun p hp => by
          apply ih p.2 ?bound e (wfEntries_mem e es hentries p hp)
            (canonEntries_mem es hce p hp)
          case bound =>
            have h1 := List.sizeOf_lt_of_mem hp
            obtain ⟨pk, px⟩ := p
            simp at hv h1 ⊢
            omega)]
      simp
    | sPtr e =>
      rcases wf_inv_ptr e v hwf with rfl | ⟨x, rfl, hwfx⟩
      · rw [produce, defaultRV, consume]
        simp [kindOf]
      · obtain ⟨hxne, hxcanon⟩ := canon_inv_ptrSome x hcanon
        rw [produce, defaultRV, consume]
        have hnn : kindOf (produce e x) ≠ .vt_null := by
          apply kindOf_ne_null
          apply produce_ne_vnull (sizeOf x) x (Nat.le_refl _) e hwfx hxcanon hxne
        rw [if_pos hnn]
        rw [ih x (by simp at hv; omega) e hwfx hxcanon]
        rfl
    | sRec decls =>
      obtain ⟨vals, rfl, hnodup, hfields⟩ := wf_inv_rec decls v hwf
      have hcl := canon_inv_rec vals hcanon
      have hlen := wfFields_length decls vals hfields
      rw [produce, defaultRV, consume]
      rw [show (rpoco_type_info_get decls).fields = membersFrom 0 decls from by
        rw [rpoco_type_info_get, expand_fields]
        rfl]
      rw [produceMembers_membersFrom]
      have hloop := consumeMembers_of_each decls vals hnodup hlen
        (fun i n sh x hdi hvi => by
          apply ih x ?bound sh (wfFields_getElem decls vals hfields i n sh x hdi hvi)
            (canonList_mem vals hcl x (List.getElem?_mem hvi))
          case bound =>
            have := List.sizeOf_lt_of_mem (List.getElem?_mem hvi)
            simp at hv
            omega)
        decls.length 0 (by omega) (by omega)
      rw [List.take_zero, List.drop_zero, List.nil_append, List.drop_zero] at hloop
      rw [hloop]
      rfl

/-- C1 counterexample input: a record with one doubly nested reference
member holding a set outer reference around an unset inner reference. -/
theorem C1_roundtrip_counterexample :
    wfB (.sRec [("p", .sPtr (.sPtr .sInt))]) (.rRec [.rPtrSome .rPtrNone]) = true ∧
    consume (.sRec [("p", .sPtr (.sPtr .sInt))])
        (defaultRV (.sRec [("p", .sPtr (.sPtr .sInt))]))
        (produce (.sRec [("p", .sPtr (.sPtr .sInt))])
          (.rRec [.rPtrSome .rPtrNone]))
      ≠ some (.rRec [.rPtrSome .rPtrNone]) := by
  constructor
  · simp [wfB, wfFields]
  · intro hcontra
    rw [show produce (.sRec [("p", .sPtr (.sPtr .sInt))])
          (.rRec [.rPtrSome .rPtrNone]) = .vobj [("p", .vnull)] from by
        rw [produce]
        rw [show (rpoco_type_info_get [("p", .sPtr (.sPtr .sInt))]).fields =
            [⟨"p", 0, .sPtr (.sPtr .sInt)⟩] from by
          rw [rpoco_type_info_get, expand_fields, membersFrom, membersFrom]
          rfl]
        rw [produceMembers_cons, produceMembers_nil]
        simp only [List.getElem?_cons_zero, Option.elim_some]
        rw [produce, produce]] at hcontra
    rw [show consume (.sRec [("p", .sPtr (.sPtr .sInt))])
          (defaultRV (.sRec [("p", .sPtr (.sPtr .sInt))]))
          (.vobj [("p", .vnull)]) = some (.rRec [.rPtrNone]) from by
        rw [defaultRV, defaultFields, defaultFields, defaultRV, consume]
        rw [consumeMembers_step _ _ _ _ _ 0 (.sPtr (.sPtr .sInt)) .rPtrNone
          (by rfl) (by rfl)
          (by
            show consume (.sPtr (.sPtr .sInt)) .rPtrNone .vnull =
              some .rPtrNone
            rw [consume]
            simp [kindOf])]
        rw [consumeMembers]
        rfl] at hcontra
    simp at hcontra

/-- C1 (amended): round-trip identity of the visit dispatch.  For every
well-formed record value in which no set owning reference directly holds an
unset owning reference, producing the value through the visitor contract
and consuming the produced output into a value-initialized target of the
same shape reconstructs every declared field value exactly — across
record, collection, map, nullable-reference and primitive shapes. -/
theorem C1_roundtrip (sh : Shape) (v : RV) (hwf : wfB sh v = true)
    (hcanon : canonB v = true) :
    consume sh (defaultRV sh) (produce sh v) = some v :=
  roundtrip_bounded (sizeOf v) v (Nat.le_refl _) sh hwf hcanon

/-- C1 witness: the spec round-trip scenario, a one-integer-field record
holding 1, nested inside a record exercising vector, map and reference
shapes. -/
theorem C1_roundtrip_witness :
    wfB (.sRec [("a", .sInt), ("v", .sVec .sInt),
        ("m", .sMap .sStr), ("p", .sPtr (.sRec [("x", .sInt)]))])
      (.rRec [.rInt 2, .rVec [.rInt 1, .rInt 23],
        .rMap [("k1", .rStr "s1"), ("k2", .rStr "s2")],
        .rPtrSome (.rRec [.rInt 1])]) = true ∧
    canonB (.rRec [.rInt 2, .rVec [.rInt 1, .rInt 23],
        .rMap [("k1", .rStr "s1"), ("k2", .rStr "s2")],
        .rPtrSome (.rRec [.rInt 1])]) = true ∧
    consume (.sRec [("a", .sInt), ("v", .sVec .sInt),
        ("m", .sMap .sStr), ("p", .sPtr (.sRec [("x", .sInt)]))])
      (defaultRV (.sRec [("a", .sInt), ("v", .sVec .sInt),
        ("m", .sMap .sStr), ("p", .sPtr (.sRec [("x", .sInt)]))]))
      (produce (.sRec [("a", .sInt), ("v", .sVec .sInt),
        ("m", .sMap .sStr), ("p", .sPtr (.sRec [("x", .sInt)]))])
        (.rRec [.rInt 2, .rVec [.rInt 1, .rInt 23],
          .rMap [("k1", .rStr "s1"), ("k2", .rStr "s2")],
          .rPtrSome (.rRec [.rInt 1])])) =
      some (.rRec [.rInt 2, .rVec [.rInt 1, .rInt 23],
        .rMap [("k1", .rStr "s1"), ("k2", .rStr "s2")],
        .rPtrSome (.rRec [.rInt 1])]) := by
  have hwf : wfB (.sRec [("a", .sInt), ("v", .sVec .sInt),
      ("m", .sMap .sStr), ("p", .sPtr (.sRec [("x", .sInt)]))])
      (.rRec [.rInt 2, .rVec [.rInt 1, .rInt 23],
        .rMap [("k1", .rStr "s1"), ("k2", .rStr "s2")],
        .rPtrSome (.rRec [.rInt 1])]) = true := by
    simp [wfB, wfFields, wfItems, wfEntries, keysSorted]
    decide
  have hcanon : canonB (.rRec [.rInt 2, .rVec [.rInt 1, .rInt 23],
      .rMap [("k1", .rStr "s1"), ("k2", .rStr "s2")],
      .rPtrSome (.rRec [.rInt 1])]) = true := by
    simp [canonB, canonList, canonEntries]
  exact ⟨hwf, hcanon, C1_roundtrip _ _ hwf hcanon⟩

end rpoco

namespace rpoco

namespace dcl

/-- Position bound extracted from a successful thread read. -/
theorem lt_of_get (l : List PC) (i : Nat) (pc : PC) (h : l[i]? = some pc) :
    i < l.length := by
  by_contra hc
  rw [List.getElem?_eq_none (by omega)] at h
  cases h

/-- Reading a thread list after moving one thread. -/
theorem get_set_cases (l : List PC) (i : Nat) (x : PC) (hi : i < l.length)
    (j : Nat) (pj : PC) (h : (l.set i x)[j]? = some pj) :
    (j = i ∧ pj = x) ∨ (j ≠ i ∧ l[j]? = some pj) := by
  by_cases hj : j = i
  · subst hj
    rw [List.getElem?_set_eq hi] at h
    exact Or.inl ⟨rfl, (Option.some.inj h).symm⟩
  · rw [List.getElem?_set_ne (Ne.symm hj)] at h
    exact Or.inr ⟨hj, h⟩

/-- Reading an unmoved thread after moving another. -/
theorem get_set_other (l : List PC) (i j : Nat) (x : PC) (hj : j ≠ i) :
    (l.set i x)[j]? = l[j]? :=
  List.getElem?_set_ne (Ne.symm hj)

/-- Reading the moved thread. -/
theorem get_set_self (l : List PC) (i : Nat) (x : PC) (hi : i < l.length) :
    (l.set i x)[i]? = some x :=
  List.getElem?_set_eq hi

theorem notCrit_start : ¬ inCrit .start := by simp [inCrit]

theorem notCrit_waitLock : ¬ inCrit .waitLock := by simp [inCrit]

theorem notCrit_done : ¬ inCrit .done := by simp [inCrit]

theorem crit_inLock : inCrit .inLock := Or.inl rfl

theorem crit_building (k : Nat) : inCrit (.building k) :=
  Or.inr (Or.inl ⟨k, rfl⟩)

theorem crit_unlocking : inCrit .unlocking := Or.inr (Or.inr rfl)

/-- The invariant holds in the start state. -/
theorem inv_init (N T : Nat) : Inv N (initSys T) := by
  have hget : ∀ (i : Nat) (pc : PC),
      (List.replicate T PC.start)[i]? = some pc → pc = .start := by
    intro i pc h
    have hb := lt_of_get _ _ _ h
    rw [List.length_replicate] at hb
    rw [List.getElem?_replicate, if_pos hb] at h
    exact (Option.some.inj h).symm
  refine ⟨?_, ?_, ?_, ?_, ?_, ?_, ?_⟩
  · intro i j pi pj hi hj hci hcj
    rw [hget i pi hi] at hci
    exact absurd hci notCrit_start
  · constructor
    · intro h; cases h
    · rintro ⟨i, pc, hi, hc⟩
      rw [hget i pc hi] at hc
      exact absurd hc notCrit_start
  · intro h; cases h
  · intro i k h
    have := hget i _ h
    cases this
  · intro _ _; exact ⟨rfl, rfl⟩
  · intro i h
    have := hget i _ h
    cases this
  · intro i h
    have := hget i _ h
    cases this

end dcl

end rpoco

namespace rpoco

namespace dcl

/-- The invariant is preserved by every interleaved step. -/
theorem inv_step (N : Nat) (s s2 : Sys) (hinv : Inv N s)
    (hs : Step N s s2) : Inv N s2 := by
  obtain ⟨hmut, hlock, hft, hbs, hidle, hunl, hdone⟩ := hinv
  cases hs with
  | fastSeen i h hf =>
    have hi := lt_of_get _ _ _ h
    refine ⟨?_, ?_, ?_, ?_, ?_, ?_, ?_⟩ <;> simp only [Sys.setThread]
    · intro a b pa pb ha hb hca hcb
      rcases get_set_cases _ _ _ hi a pa ha with ⟨rfl, rfl⟩ | ⟨hna, ha0⟩
      · exact absurd hca notCrit_done
      rcases get_set_cases _ _ _ hi b pb hb with ⟨rfl, rfl⟩ | ⟨hnb, hb0⟩
      · exact absurd hcb notCrit_done
      exact hmut a b pa pb ha0 hb0 hca hcb
    · constructor
      · intro hl
        obtain ⟨a, pc, ha, hc⟩ := hlock.mp hl
        have hna : a ≠ i := by
          intro hcontra
          subst hcontra
          rw [h] at ha
          have hpc : pc = .start := (Option.some.inj ha).symm
          rw [hpc] at hc
          exact absurd hc notCrit_start
        exact ⟨a, pc, by rw [get_set_other _ _ _ _ hna]; exact ha, hc⟩
      · rintro ⟨a, pc, ha, hc⟩
        rcases get_set_cases _ _ _ hi a pc ha with ⟨rfl, rfl⟩ | ⟨hna, ha0⟩
        · exact absurd hc notCrit_done
        · exact hlock.mpr ⟨a, pc, ha0, hc⟩
    · exact hft
    · intro a k ha
      rcases get_set_cases _ _ _ hi a _ ha with ⟨rfl, he⟩ | ⟨hna, ha0⟩
      · simp at he
      · exact hbs a k ha0
    · intro hff
      rw [hf] at hff
      cases hff
    · intro a _
      exact hf
    · intro a _
      exact hf
  | fastMiss i h hf =>
    have hi := lt_of_get _ _ _ h
    refine ⟨?_, ?_, ?_, ?_, ?_, ?_, ?_⟩ <;> simp only [Sys.setThread]
    · intro a b pa pb ha hb hca hcb
      rcases get_set_cases _ _ _ hi a pa ha with ⟨rfl, rfl⟩ | ⟨hna, ha0⟩
      · exact absurd hca notCrit_waitLock
      rcases get_set_cases _ _ _ hi b pb hb with ⟨rfl, rfl⟩ | ⟨hnb, hb0⟩
      · exact absurd hcb notCrit_waitLock
      exact hmut a b pa pb ha0 hb0 hca hcb
    · constructor
      · intro hl
        obtain ⟨a, pc, ha, hc⟩ := hlock.mp hl
        have hna : a ≠ i := by
          intro hcontra
          subst hcontra
          rw [h] at ha
          have hpc : pc = .start := (Option.some.inj ha).symm
          rw [hpc] at hc
          exact absurd hc notCrit_start
        exact ⟨a, pc, by rw [get_set_other _ _ _ _ hna]; exact ha, hc⟩
      · rintro ⟨a, pc, ha, hc⟩
        rcases get_set_cases _ _ _ hi a pc ha with ⟨rfl, rfl⟩ | ⟨hna, ha0⟩
        · exact absurd hc notCrit_waitLock
        · exact hlock.mpr ⟨a, pc, ha0, hc⟩
    · intro hcontra
      rw [hf] at hcontra
      cases hcontra
    · intro a k ha
      rcases get_set_cases _ _ _ hi a _ ha with ⟨rfl, he⟩ | ⟨hna, ha0⟩
      · simp at he
      · exact hbs a k ha0
    · intro hff hnb
      apply hidle hf
      intro a k hcontra
      have hna : a ≠ i := by
        intro hieq
        subst hieq
        rw [h] at hcontra
        simp at hcontra
      exact hnb a k (by rw [get_set_other _ _ _ _ hna]; exact hcontra)
    · intro a ha
      rcases get_set_cases _ _ _ hi a _ ha with ⟨rfl, he⟩ | ⟨hna, ha0⟩
      · simp at he
      · exact hunl a ha0
    · intro a ha
      rcases get_set_cases _ _ _ hi a _ ha with ⟨rfl, he⟩ | ⟨hna, ha0⟩
      · simp at he
      · exact hdone a ha0
  | acquire i h hl =>
    have hi := lt_of_get _ _ _ h
    have hnocrit : ∀ (a : Nat) (pc : PC), s.threads[a]? = some pc →
        ¬ inCrit pc := by
      intro a pc ha hc
      have := hlock.mpr ⟨a, pc, ha, hc⟩
      rw [this] at hl
      cases hl
    refine ⟨?_, ?_, ?_, ?_, ?_, ?_, ?_⟩ <;> simp only [Sys.setThread]
    · intro a b pa pb ha hb hca hcb
      rcases get_set_cases _ _ _ hi a pa ha with ⟨rfl, rfl⟩ | ⟨hna, ha0⟩
      · rcases get_set_cases _ _ _ hi b pb hb with ⟨rfl, rfl⟩ | ⟨hnb, hb0⟩
        · rfl
        · exact absurd hcb (hnocrit b pb hb0)
      · exact absurd hca (hnocrit a pa ha0)
    · constructor
      · intro _
        exact ⟨i, .inLock, get_set_self _ _ _ hi, crit_inLock⟩
      · intro _
        trivial
    · exact hft
    · intro a k ha
      rcases get_set_cases _ _ _ hi a _ ha with ⟨rfl, he⟩ | ⟨hna, ha0⟩
      · simp at he
      · exact hbs a k ha0
    · intro hff hnb
      apply hidle hff
      intro a k hcontra
      have hna : a ≠ i := by
        intro hieq
        subst hieq
        rw [h] at hcontra
        simp at hcontra
      exact hnb a k (by rw [get_set_other _ _ _ _ hna]; exact hcontra)
    · intro a ha
      rcases get_set_cases _ _ _ hi a _ ha with ⟨rfl, he⟩ | ⟨hna, ha0⟩
      · simp at he
      · exact hunl a ha0
    · intro a ha
      rcases get_set_cases _ _ _ hi a _ ha with ⟨rfl, he⟩ | ⟨hna, ha0⟩
      · simp at he
      · exact hdone a ha0
  | recheckTrue i h hf =>
    have hi := lt_of_get _ _ _ h
    refine ⟨?_, ?_, ?_, ?_, ?_, ?_, ?_⟩ <;> simp only [Sys.setThread]
    · intro a b pa pb ha hb hca hcb
      rcases get_set_cases _ _ _ hi a pa ha with ⟨hai, hpa⟩ | ⟨hna, ha0⟩
      · rcases get_set_cases _ _ _ hi b pb hb with ⟨hbi, hpb⟩ | ⟨hnb, hb0⟩
        · rw [hai, hbi]
        · rw [hai]
          exact (hmut b i pb .inLock hb0 h hcb crit_inLock).symm
      · rcases get_set_cases _ _ _ hi b pb hb with ⟨hbi, hpb⟩ | ⟨hnb, hb0⟩
        · rw [hbi]
          exact hmut a i pa .inLock ha0 h hca crit_inLock
        · exact hmut a b pa pb ha0 hb0 hca hcb
    · constructor
      · intro _
        exact ⟨i, .unlocking, get_set_self _ _ _ hi, crit_unlocking⟩
      · intro _
        exact hlock.mpr ⟨i, .inLock, h, crit_inLock⟩
    · exact hft
    · intro a k ha
      rcases get_set_cases _ _ _ hi a _ ha with ⟨rfl, he⟩ | ⟨hna, ha0⟩
      · simp at he
      · exact hbs a k ha0
    · intro hff
      rw [hf] at hff
      cases hff
    · intro a _
      exact hf
    · intro a _
      exact hf
  | recheckFalse i h hf =>
    have hi := lt_of_get _ _ _ h
    have hnb0 : ∀ (a k : Nat), s.threads[a]? ≠ some (.building k) := by
      intro a k hcontra
      have hai : a = i :=
        hmut a i (.building k) .inLock hcontra h (crit_building k) crit_inLock
      subst hai
      rw [h] at hcontra
      simp at hcontra
    have hidle0 := hidle hf hnb0
    refine ⟨?_, ?_, ?_, ?_, ?_, ?_, ?_⟩ <;> simp only [Sys.setThread]
    · intro a b pa pb ha hb hca hcb
      rcases get_set_cases _ _ _ hi a pa ha with ⟨hai, hpa⟩ | ⟨hna, ha0⟩
      · rcases get_set_cases _ _ _ hi b pb hb with ⟨hbi, hpb⟩ | ⟨hnb, hb0⟩
        · rw [hai, hbi]
        · rw [hai]
          exact (hmut b i pb .inLock hb0 h hcb crit_inLock).symm
      · rcases get_set_cases _ _ _ hi b pb hb with ⟨hbi, hpb⟩ | ⟨hnb, hb0⟩
        · rw [hbi]
          exact hmut a i pa .inLock ha0 h hca crit_inLock
        · exact hmut a b pa pb ha0 hb0 hca hcb
    · constructor
      · intro _
        exact ⟨i, .building 0, get_set_self _ _ _ hi, crit_building 0⟩
      · intro _
        exact hlock.mpr ⟨i, .inLock, h, crit_inLock⟩
    · intro hcontra
      rw [hf] at hcontra
      cases hcontra
    · intro a k ha
      rcases get_set_cases _ _ _ hi a _ ha with ⟨rfl, he⟩ | ⟨hna, ha0⟩
      · have hk0 : k = 0 := by
          cases he
          rfl
        subst hk0
        exact ⟨hf, hidle0.1, by rw [hidle0.2], Nat.zero_le N⟩
      · exact absurd ha0 (hnb0 a k)
    · intro hff hnb2
      exact absurd (get_set_self _ i (.building 0) hi) (hnb2 i 0)
    · intro a ha
      rcases get_set_cases _ _ _ hi a _ ha with ⟨rfl, he⟩ | ⟨hna, ha0⟩
      · simp at he
      · exact hunl a ha0
    · intro a ha
      rcases get_set_cases _ _ _ hi a _ ha with ⟨rfl, he⟩ | ⟨hna, ha0⟩
      · simp at he
      · exact hdone a ha0
  | buildStep i k h hk =>
    have hi := lt_of_get _ _ _ h
    have hb := hbs i k h
    refine ⟨?_, ?_, ?_, ?_, ?_, ?_, ?_⟩ <;> simp only [Sys.setThread]
    · intro a b pa pb ha hb2 hca hcb
      rcases get_set_cases _ _ _ hi a pa ha with ⟨hai, hpa⟩ | ⟨hna, ha0⟩
      · rcases get_set_cases _ _ _ hi b pb hb2 with ⟨hbi, hpb⟩ | ⟨hnb, hb0⟩
        · rw [hai, hbi]
        · rw [hai]
          exact (hmut b i pb (.building k) hb0 h hcb (crit_building k)).symm
      · rcases get_set_cases _ _ _ hi b pb hb2 with ⟨hbi, hpb⟩ | ⟨hnb, hb0⟩
        · rw [hbi]
          exact hmut a i pa (.building k) ha0 h hca (crit_building k)
        · exact hmut a b pa pb ha0 hb0 hca hcb
    · constructor
      · intro _
        exact ⟨i, .building (k + 1), get_set_self _ _ _ hi,
          crit_building (k + 1)⟩
      · intro _
        exact hlock.mpr ⟨i, .building k, h, crit_building k⟩
    · intro hcontra
      rw [hb.1] at hcontra
      cases hcontra
    · intro a k2 ha
      rcases get_set_cases _ _ _ hi a _ ha with ⟨rfl, he⟩ | ⟨hna, ha0⟩
      · have hk2 : k2 = k + 1 := by
          cases he
          rfl
        subst hk2
        exact ⟨hb.1, by rw [hb.2.1], hb.2.2.1, by omega⟩
      · have hai : a = i := hmut a i (.building k2) (.building k) ha0 h
          (crit_building k2) (crit_building k)
        exact absurd hai hna
    · intro hff hnb2
      exact absurd (get_set_self _ i (.building (k + 1)) hi) (hnb2 i (k + 1))
    · intro a ha
      rcases get_set_cases _ _ _ hi a _ ha with ⟨rfl, he⟩ | ⟨hna, ha0⟩
      · simp at he
      · exact hunl a ha0
    · intro a ha
      rcases get_set_cases _ _ _ hi a _ ha with ⟨rfl, he⟩ | ⟨hna, ha0⟩
      · simp at he
      · exact hdone a ha0
  | buildDone i h =>
    have hi := lt_of_get _ _ _ h
    have hb := hbs i N h
    refine ⟨?_, ?_, ?_, ?_, ?_, ?_, ?_⟩ <;> simp only [Sys.setThread]
    · intro a b pa pb ha hb2 hca hcb
      rcases get_set_cases _ _ _ hi a pa ha with ⟨hai, hpa⟩ | ⟨hna, ha0⟩
      · rcases get_set_cases _ _ _ hi b pb hb2 with ⟨hbi, hpb⟩ | ⟨hnb, hb0⟩
        · rw [hai, hbi]
        · rw [hai]
          exact (hmut b i pb (.building N) hb0 h hcb (crit_building N)).symm
      · rcases get_set_cases _ _ _ hi b pb hb2 with ⟨hbi, hpb⟩ | ⟨hnb, hb0⟩
        · rw [hbi]
          exact hmut a i pa (.building N) ha0 h hca (crit_building N)
        · exact hmut a b pa pb ha0 hb0 hca hcb
    · constructor
      · intro _
        exact ⟨i, .unlocking, get_set_self _ _ _ hi, crit_unlocking⟩
      · intro _
        exact hlock.mpr ⟨i, .building N, h, crit_building N⟩
    · intro _
      exact ⟨hb.2.1, hb.2.2.1⟩
    · intro a k2 ha
      rcases get_set_cases _ _ _ hi a _ ha with ⟨rfl, he⟩ | ⟨hna, ha0⟩
      · simp at he
      · have hai : a = i := hmut a i (.building k2) (.building N) ha0 h
          (crit_building k2) (crit_building N)
        exact absurd hai hna
    · intro hff
      cases hff
    · intro a _
      trivial
    · intro a _
      trivial
  | release i h =>
    have hi := lt_of_get _ _ _ h
    have hfl := hunl i h
    refine ⟨?_, ?_, ?_, ?_, ?_, ?_, ?_⟩ <;> simp only [Sys.setThread]
    · intro a b pa pb ha hb2 hca hcb
      rcases get_set_cases _ _ _ hi a pa ha with ⟨rfl, rfl⟩ | ⟨hna, ha0⟩
      · exact absurd hca notCrit_done
      rcases get_set_cases _ _ _ hi b pb hb2 with ⟨rfl, rfl⟩ | ⟨hnb, hb0⟩
      · exact absurd hcb notCrit_done
      exact hmut a b pa pb ha0 hb0 hca hcb
    · constructor
      · intro hcontra
        cases hcontra
      · rintro ⟨a, pc, ha, hc⟩
        rcases get_set_cases _ _ _ hi a pc ha with ⟨rfl, rfl⟩ | ⟨hna, ha0⟩
        · exact absurd hc notCrit_done
        · exact absurd (hmut a i pc .unlocking ha0 h hc crit_unlocking) hna
    · exact hft
    · intro a k ha
      rcases get_set_cases _ _ _ hi a _ ha with ⟨rfl, he⟩ | ⟨hna, ha0⟩
      · simp at he
      · have hff := (hbs a k ha0).1
        rw [hfl] at hff
        cases hff
    · intro hff
      rw [hfl] at hff
      cases hff
    · intro a ha
      rcases get_set_cases _ _ _ hi a _ ha with ⟨rfl, he⟩ | ⟨hna, ha0⟩
      · simp at he
      · exact hunl a ha0
    · intro a ha
      rcases get_set_cases _ _ _ hi a _ ha with ⟨rfl, he⟩ | ⟨hna, ha0⟩
      · exact hfl
      · exact hdone a ha0

/-- Every reachable state satisfies the invariant. -/
theorem inv_reach (N T : Nat) (s : Sys) (h : Reach N T s) : Inv N s := by
  induction h with
  | refl => exact inv_init N T
  | tail _ hstep ih => exact inv_step N _ _ ih hstep

end dcl

end rpoco

namespace rpoco

namespace dcl

/-- C2: under the interleaving semantics of the double-checked locking
init (sequentially consistent atomics), any reachable state in which some
thread has returned from rpoco_type_info_get has run the initialization
function exactly once and carries the fully populated N-member field
table — every returning thread observes the same complete table, never a
partial one; and once the is_init flag is set, no further step of
rpoco_type_info_get or type_info::init changes the table or runs the
initializer again. -/
theorem C2_registry_built_once (N T : Nat) (s : Sys) (h : Reach N T s) :
    ((∃ (i : Nat), s.threads[i]? = some .done) →
      s.builds = 1 ∧ s.table = N ∧ s.flag = true) ∧
    (s.flag = true → ∀ (s2 : Sys), Step N s s2 →
      s2.table = s.table ∧ s2.builds = s.builds) := by
  have hinv := inv_reach N T s h
  constructor
  · rintro ⟨i, hi⟩
    have hflag := hinv.doneFlag i hi
    obtain ⟨ht, hb⟩ := hinv.flagTable hflag
    exact ⟨hb, ht, hflag⟩
  · intro hflag s2 hstep
    cases hstep with
    | fastSeen i h2 hf => exact ⟨rfl, rfl⟩
    | fastMiss i h2 hf => exact ⟨rfl, rfl⟩
    | acquire i h2 hl => exact ⟨rfl, rfl⟩
    | recheckTrue i h2 hf => exact ⟨rfl, rfl⟩
    | recheckFalse i h2 hf =>
      rw [hflag] at hf
      cases hf
    | buildStep i k h2 hk =>
      have hff := (hinv.buildState i k h2).1
      rw [hflag] at hff
      cases hff
    | buildDone i h2 =>
      have hff := (hinv.buildState i N h2).1
      rw [hflag] at hff
      cases hff
    | release i h2 => exact ⟨rfl, rfl⟩

/-- C2 witness: one thread builds a one-member registry end to end; the
final state shows one build, a full table and the flag set. -/
theorem C2_registry_built_once_witness :
    Reach 1 1 ⟨true, false, 1, 1, [.done]⟩ ∧
    (⟨true, false, 1, 1, [.done]⟩ : Sys).builds = 1 ∧
    (⟨true, false, 1, 1, [.done]⟩ : Sys).table = 1 ∧
    (⟨true, false, 1, 1, [.done]⟩ : Sys).flag = true := by
  have hreach : Reach 1 1 ⟨true, false, 1, 1, [.done]⟩ := by
    have s0 : Step 1 (initSys 1) ⟨false, false, 0, 0, [.waitLock]⟩ :=
      Step.fastMiss (initSys 1) 0 rfl rfl
    have s1 : Step 1 (⟨false, false, 0, 0, [.waitLock]⟩ : Sys)
        ⟨false, true, 0, 0, [.inLock]⟩ :=
      Step.acquire _ 0 rfl rfl
    have s2 : Step 1 (⟨false, true, 0, 0, [.inLock]⟩ : Sys)
        ⟨false, true, 1, 0, [.building 0]⟩ :=
      Step.recheckFalse _ 0 rfl rfl
    have s3 : Step 1 (⟨false, true, 1, 0, [.building 0]⟩ : Sys)
        ⟨false, true, 1, 1, [.building 1]⟩ :=
      Step.buildStep _ 0 0 rfl (by omega)
    have s4 : Step 1 (⟨false, true, 1, 1, [.building 1]⟩ : Sys)
        ⟨true, true, 1, 1, [.unlocking]⟩ :=
      Step.buildDone _ 0 rfl
    have s5 : Step 1 (⟨true, true, 1, 1, [.unlocking]⟩ : Sys)
        ⟨true, false, 1, 1, [.done]⟩ :=
      Step.release _ 0 rfl
    exact Relation.ReflTransGen.head s0 (.head s1 (.head s2 (.head s3
      (.head s4 (.single s5)))))
  refine ⟨hreach, ?_⟩
  have hmain := (C2_registry_built_once 1 1 _ hreach).1 ⟨0, rfl⟩
  exact hmain

end dcl

end rpoco
